import Mathlib

/-!
A shallow embedding of the UQpy excerpt consisting of
`sampling/LatinHypercubeSampling.py`, `distributions/collection/JointCopula.py`
and `inference/MLE.py`, together with theorems checking the natural-language
specification against it.  Numpy float arrays are modelled over `ℚ`; Python
dictionaries are modelled as insertion-ordered association lists; a Python
call that can raise is modelled as returning the mutated state together with
an optional error message, since mutations made before an exception persist
on the object.
-/

namespace UQpyModel

/-- A numeric matrix, row-major, modelling a 2-D numpy array. -/
abbrev Mat : Type := List (List ℚ)

/-- `np.zeros([n, d])`. -/
def zeros (n d : ℕ) : Mat := List.replicate n (List.replicate d 0)

/-- `np.zeros_like(mat)`: a zero matrix of the same shape. -/
def zerosLike (mat : Mat) : Mat := mat.map (fun row => row.map (fun _ => 0))

/-- Number of rows (`len(mat)`, the first component of the numpy shape). -/
def rowCount (mat : Mat) : ℕ := mat.length

/-- Number of columns (second component of the numpy shape). -/
def colCount (mat : Mat) : ℕ := (mat.headD []).length

/-- `mat` has numpy shape `(n, d)`: `n` rows, each of length `d`. -/
def IsShape (mat : Mat) (n d : ℕ) : Prop :=
  mat.length = n ∧ ∀ row ∈ mat, row.length = d

instance (mat : Mat) (n d : ℕ) : Decidable (IsShape mat n d) := by
  unfold IsShape; infer_instance

/-- Entry `mat[i, j]` (reads 0 outside the bounds; the program only reads in
bounds). -/
def entry (mat : Mat) (i j : ℕ) : ℚ := (mat.getD i []).getD j 0

/-- Column `mat[:, j]` as a vector. -/
def column (mat : Mat) (j : ℕ) : List ℚ := mat.map (fun row => row.getD j 0)

/-- Numpy column assignment `mat[:, j] = col`: row `i` receives `col[i]`.  In
the program `col` always has exactly `mat.length` entries. -/
def setColumn (mat : Mat) (j : ℕ) (col : List ℚ) : Mat :=
  List.zipWith (fun row v => row.set j v) mat col

/-! ## Latin hypercube sampling (`sampling/LatinHypercubeSampling.py`) -/

/-- A 1-D marginal distribution as the sampler sees it: it may or may not
expose an `icdf` capability (`hasattr(d, "icdf")`).  When present, `icdf`
maps an array of unit-interval values to quantiles elementwise (spec §6
contract `icdf(u: ordered sequence) -> ordered sequence`, applied per
dimension). -/
structure Marginal where
  icdf : Option (ℚ → ℚ)

/-- The `distributions` argument once `beartype` has accepted it, split by the
`isinstance` chain of `__init__`/`run`: a list of distributions, a single
`DistributionContinuous1D`, or a `JointIndependent` holding an ordered list
of marginals. -/
inductive DistObject where
  | ofList (ms : List Marginal)
  | continuous1D (m : Marginal)
  | jointIndependent (ms : List Marginal)

/-- Modelled from the spec: the criterion classes (`Random`, `Centered`,
`MaxiMin`, `MinCorrelation`) are outside this excerpt; spec §6 gives their
contract — `create_bins(samples_matrix)` receives the current samples matrix and
establishes grid state against its shape, and `generate_samples()` returns a
matrix of that shape with entries in `[0,1)`, or raises (e.g. MaxiMin with
`n < 2`, spec §4.4/§7; the strategy set is open, so a conforming criterion
is any such function).  The two calls are modelled as one function from the
received matrix to the generated matrix or an error. -/
structure Criterion where
  gen : Mat → Except String Mat

/-- The spec §6 shape contract: from a matrix of shape `(n, d)` a successful
`generate_samples` returns a matrix of shape `(n, d)`. -/
def Criterion.Lawful (c : Criterion) : Prop :=
  ∀ mat u, c.gen mat = Except.ok u → IsShape u (rowCount mat) (colCount mat)

/-- The observable state of a `LatinHypercubeSampling` object. -/
structure LHSEngine where
  dist_object : DistObject
  criterion : Criterion
  samples_number : ℕ
  samples : Mat
  samplesU01 : Mat

/-- The body of the `for j in range(len(self.dist_object))` loop of `run`
(list branch): `if hasattr(self.dist_object[j], "icdf"): self.samples[:, j]
= self.dist_object[j].icdf(u_lhs[:, j])`.  The `JointIndependent` branch
runs the same loop, but only under its `all(hasattr(m, "icdf") ...)` guard,
under which the per-dimension capability test here is vacuously true. -/
def transformStep (ms : List Marginal) (u : Mat) (s : Mat) (j : ℕ) : Mat :=
  match ms[j]? with
  | some m =>
    match m.icdf with
    | some f => setColumn s j ((column u j).map f)
    | none => s
  | none => s

/-- The transform loop itself: `for j in range(len(ms))` over `transformStep`. -/
def transformLoop (ms : List Marginal) (u : Mat) (samples : Mat) : Mat :=
  (List.range ms.length).foldl (transformStep ms u) samples

/-- The `JointIndependent` branch of `run`: the transform loop runs only when
every marginal has `icdf`; otherwise nothing is assigned. -/
def transformJoint (ms : List Marginal) (u : Mat) (samples : Mat) : Mat :=
  if ms.all (fun m => m.icdf.isSome) then transformLoop ms u samples else samples

/-- `LatinHypercubeSampling.run(samples_number)`.  Statements execute in
order; an exception aborts the remainder but the mutations already made
persist, so the model returns the final state with an optional error:
`self.samples_number = samples_number`, then
`self.criterion.create_bins(self.samples)` and
`u_lhs = self.criterion.generate_samples()` (which sees the shape of the
current `samples` matrix), then `self.samplesU01 = u_lhs`, then the
`isinstance` chain of column transforms. -/
def runLHS (e : LHSEngine) (m : ℕ) : LHSEngine × Option String :=
  let e1 : LHSEngine := { e with samples_number := m }
  match e1.criterion.gen e1.samples with
  | Except.error msg => (e1, some msg)
  | Except.ok u_lhs =>
    let e2 : LHSEngine := { e1 with samplesU01 := u_lhs }
    match e2.dist_object with
    | DistObject.ofList ms =>
        ({ e2 with samples := transformLoop ms u_lhs e2.samples }, none)
    | DistObject.jointIndependent ms =>
        ({ e2 with samples := transformJoint ms u_lhs e2.samples }, none)
    | DistObject.continuous1D mg =>
        match mg.icdf with
        | some f => ({ e2 with samples := u_lhs.map (fun row => row.map f) }, none)
        | none => (e2, none)

/-- `LatinHypercubeSampling.__init__`.  `beartype` rejects a `distributions`
argument that is not a `Distribution` or a list of `Distribution`s (modelled
as the `none` input) and a `samples_number` that is not a positive integer;
then the matrices are allocated by the `isinstance` chain,
`samplesU01 = np.zeros_like(samples)`, and since the validated
`samples_number` is never `None`, `run(samples_number)` is invoked.  An
exception escaping `run` escapes the constructor. -/
def lhsInit (distributions : Option DistObject) (samples_number : Int)
    (criterion : Criterion) : Except String LHSEngine :=
  match distributions with
  | none => Except.error "beartype: distributions is not a Distribution or a list of Distributions"
  | some d =>
    if samples_number ≤ 0 then
      Except.error "beartype: samples_number is not a PositiveInteger"
    else
      let n : ℕ := samples_number.toNat
      let samples0 : Mat :=
        match d with
        | DistObject.ofList ms => zeros n ms.length
        | DistObject.continuous1D _ => zeros n 1
        | DistObject.jointIndependent ms => zeros n ms.length
      let e0 : LHSEngine :=
        { dist_object := d, criterion := criterion, samples_number := n,
          samples := samples0, samplesU01 := zerosLike samples0 }
      match runLHS e0 n with
      | (e1, none) => Except.ok e1
      | (_, some msg) => Except.error msg

/-- The dimensionality the spec attributes to each kind of `distributions`
input (spec §4.6): list length, 1, or number of marginals. -/
def dimsOf : DistObject → ℕ
  | DistObject.ofList ms => ms.length
  | DistObject.continuous1D _ => 1
  | DistObject.jointIndependent ms => ms.length

/-! ## Joint distribution with copula (`distributions/collection/JointCopula.py`) -/

/-- Parameter names: Python strings, modelled as character lists so that the
`split("_")` / `"_".join` manipulation of `update_parameters` can be stated
exactly. -/
abbrev Name : Type := List Char

/-- A Python parameter dictionary: an insertion-ordered association list.  A
real dict has unique keys; that invariant is a hypothesis where needed. -/
abbrev ParamDict : Type := List (Name × ℚ)

/-- `d[k] = v` on a Python dict: overwrite in place when the key is present,
append otherwise. -/
def dictSet (d : ParamDict) (k : Name) (v : ℚ) : ParamDict :=
  if d.any (fun p => p.1 = k) then
    d.map (fun p => if p.1 = k then (k, v) else p)
  else d ++ [(k, v)]

/-- `d.keys()`. -/
def dictKeys (d : ParamDict) : List Name := d.map Prod.fst

/-- `d[k]` as an optional lookup. -/
def dictGet (d : ParamDict) (k : Name) : Option ℚ :=
  (d.find? (fun p => p.1 = k)).map Prod.snd

/-- `str(i)` for a natural `i`: its decimal digit characters. -/
def natChars (n : ℕ) : Name :=
  if n = 0 then ['0'] else ((Nat.digits 10 n).map Nat.digitChar).reverse

/-- The numeric value of a decimal digit character; `int(s)` on the digit
strings produced by `str` is modelled through it (it is applied only to
suffixes that membership in `all_keys` has already validated). -/
def charVal (c : Char) : ℕ := c.toNat - 48

/-- `int(s)` on a decimal digit string. -/
def charsToNat (s : Name) : ℕ := Nat.ofDigits 10 ((s.map charVal).reverse)

/-- The joint identifier `key_index` of parameter `key` of marginal `index`. -/
def keyM (key : Name) (i : ℕ) : Name := key ++ '_' :: natChars i

/-- The joint identifier `key_c` of copula parameter `key`. -/
def keyC (key : Name) : Name := key ++ ['_', 'c']

/-- A 1-D marginal as `JointCopula` consumes it: its `ordered_parameters`
list, its `parameters` dict (the `get_parameters` of a `Distribution`
returns exactly this dict — the source notes that the joint's parameters
"are only stored as attributes of the marginals/copula objects"), and the
capability flags that the `hasattr` tests read.  Instances model
`DistributionContinuous1D` objects, on which the continuity check of
`Copula.check_marginals` passes. -/
structure CMarginal where
  ordered_parameters : List Name
  parameters : ParamDict
  has_cdf : Bool
  has_pdf : Bool
  has_log_pdf : Bool

/-- A `Copula` object as `JointCopula` consumes it. -/
structure PCopula where
  ordered_parameters : List Name
  parameters : ParamDict
  has_evaluate_cdf : Bool
  has_evaluate_pdf : Bool

/-- The observable state of a constructed `JointCopula`: the stored marginals
and copula, the composed `ordered_parameters`, and which of the dynamically
bound methods `cdf` / `pdf` / `log_pdf` were attached by `__init__`. -/
structure JointCopulaD where
  marginals : List CMarginal
  copula : PCopula
  ordered_parameters : List Name
  has_cdf : Bool
  has_pdf : Bool
  has_log_pdf : Bool

/-- `JointCopula.__init__`: compose `ordered_parameters` with the `key_index`
/ `key_c` identifiers; the `isinstance` checks on `marginals` and `copula`
are satisfied by typing here; raise unless every marginal has a `cdf`
method; then `Copula.check_marginals(marginals)` runs — its source is
outside this excerpt, and it is modelled from its UQpy behaviour: the
copulas are bivariate, so it raises
`ValueError("Maximum dimension for the Copula is 2.")` unless exactly two
continuous marginals are given (the continuity part passes on the
`DistributionContinuous1D` objects that `CMarginal` models); finally bind
`cdf` / `pdf` / `log_pdf` exactly when the corresponding capability tests
succeed. -/
def jointCopulaInit (marginals : List CMarginal) (copula : PCopula) :
    Except String JointCopulaD :=
  let op :=
    (marginals.enum.map (fun im =>
      im.2.ordered_parameters.map (fun key => keyM key im.1))).flatten ++
    copula.ordered_parameters.map (fun key => keyC key)
  if ¬ marginals.all (fun m => m.has_cdf) then
    Except.error "All the marginals should have a cdf method in order to define a joint with copula."
  else if marginals.length ≠ 2 then
    Except.error "Maximum dimension for the Copula is 2."
  else
    Except.ok
      { marginals := marginals, copula := copula, ordered_parameters := op,
        has_cdf := copula.has_evaluate_cdf,
        has_pdf := marginals.all (fun m => m.has_pdf) && copula.has_evaluate_pdf,
        has_log_pdf := marginals.all (fun m => m.has_log_pdf) && copula.has_evaluate_pdf }

/-- `JointCopula.get_parameters`: start from an empty dict and insert each
marginal parameter under `key_index`, then each copula parameter under
`key_c`. -/
def getParameters (j : JointCopulaD) : ParamDict :=
  let params := j.marginals.enum.foldl
    (fun acc im => im.2.parameters.foldl
      (fun acc2 kv => dictSet acc2 (keyM kv.1 im.1) kv.2) acc) []
  j.copula.parameters.foldl (fun acc kv => dictSet acc (keyC kv.1) kv.2) params

/-- One iteration of the `update_parameters` loop on keyword `(key_indexed,
value)`: raise if it is not among `all_keys`; otherwise
`key_split = key_indexed.split("_")`, `key = "_".join(key_split[:-1])`,
`index = key_split[-1]`, and the value is written through to the copula dict
when `index == "c"`, else to the dict of marginal `int(index)` (an
out-of-range index would raise `IndexError`; membership in `all_keys` makes
that unreachable). -/
def updateStep (j : JointCopulaD) (allKeys : List Name) (key_indexed : Name)
    (v : ℚ) : Except String JointCopulaD :=
  if key_indexed ∉ allKeys then
    Except.error "Unrecognized keyword argument"
  else
    let key_split := key_indexed.splitOn '_'
    let key := List.intercalate ['_'] key_split.dropLast
    let index := key_split.getLastD []
    if index = ['c'] then
      Except.ok { j with copula :=
        { j.copula with parameters := dictSet j.copula.parameters key v } }
    else
      let i := charsToNat index
      match j.marginals[i]? with
      | some m =>
          let m2 : CMarginal := { m with parameters := dictSet m.parameters key v }
          Except.ok { j with marginals := j.marginals.set i m2 }
      | none => Except.error "IndexError"

/-- The keyword loop of `update_parameters`: keywords are processed in order
against the fixed `all_keys`; a raise aborts the loop, leaving the writes of
the earlier iterations in place. -/
def updateGo (allKeys : List Name) :
    JointCopulaD → List (Name × ℚ) → JointCopulaD × Option String
  | j, [] => (j, none)
  | j, kv :: rest =>
    match updateStep j allKeys kv.1 kv.2 with
    | Except.ok j2 => updateGo allKeys j2 rest
    | Except.error msg => (j, some msg)

/-- `JointCopula.update_parameters(**kwargs)`: `all_keys` is computed once
from the current parameters, then each keyword is processed in order. -/
def updateParameters (j : JointCopulaD) (kwargs : List (Name × ℚ)) :
    JointCopulaD × Option String :=
  updateGo (dictKeys (getParameters j)) j kwargs

/-! ## Maximum likelihood estimation (`inference/MLE.py`) -/

/-- The result object of one `optimizer.optimize` call: `res.x` and
`res.fun` (the minimized negative log-likelihood). -/
structure OptResult where
  x : List ℚ
  fn : ℚ

/-- The shared save step of `_run_optimization` and `_run_distribution_fit`:
`if self.mle is None or max_log_like_tmp > self.max_log_like:` then store
`(mle_tmp, max_log_like_tmp)`.  The state is `none` while `self.mle is
None`, else `some (mle, max_log_like)`. -/
def saveResult : Option (List ℚ × ℚ) → List ℚ × ℚ → Option (List ℚ × ℚ)
  | none, t => some t
  | some (m, v), t => if t.2 > v then some t else some (m, v)

/-- `MLE._run_optimization`: each starting point yields an optimizer result;
`max_log_like_tmp = (-1.0) * res.fun`; the best is kept by `saveResult`.
`results` lists the optimizer returns for the successive starts and `st` is
the incoming `(mle, max_log_like)` state (`none` on a fresh object). -/
def runOptimizationMLE (st : Option (List ℚ × ℚ)) (results : List OptResult) :
    Option (List ℚ × ℚ) :=
  results.foldl (fun s r => saveResult s (r.x, (-1) * r.fn)) st

/-- `MLE._run_distribution_fit`: each trial refits the distribution and the
best is kept by the same save step; `trials` lists the
`(mle_tmp, max_log_like_tmp)` pairs the successive `fit` calls produce. -/
def runDistributionFitMLE (st : Option (List ℚ × ℚ))
    (trials : List (List ℚ × ℚ)) : Option (List ℚ × ℚ) :=
  trials.foldl saveResult st

/-! ## Derived notions and concrete instances used in the theorems -/

/-- The inverse-CDF capability of dimension `j` of a marginal list: `some`
of the transported value exactly when marginal `j` exists and exposes
`icdf`. -/
def applyIcdf (ms : List Marginal) (j : ℕ) (x : ℚ) : Option ℚ :=
  match ms[j]? with
  | some m =>
    match m.icdf with
    | some f => some (f x)
    | none => none
  | none => none

/-- A lawful concrete criterion: every sample at the lower edge of its
stratum with offset 0, i.e. a matrix of zeros of the received shape (each
entry lies in `[0,1)`). -/
def zeroCrit : Criterion :=
  ⟨fun mat => Except.ok (zeros (rowCount mat) (colCount mat))⟩

/-- A conforming criterion that raises on any matrix that is not all zeros:
it succeeds on the freshly allocated design and raises on a later re-run,
the way a strategy-specific validation inside `create_bins` /
`generate_samples` may (spec §4.4/§7; the strategy set is open). -/
def flakyCrit : Criterion :=
  ⟨fun mat =>
    if mat = zeros (rowCount mat) (colCount mat) then
      Except.ok (zeros (rowCount mat) (colCount mat))
    else Except.error "criterion raised"⟩

/-- A marginal whose inverse CDF is the identity map. -/
def idMarg : Marginal := ⟨some (fun x => x)⟩

/-- A marginal whose inverse CDF is the constant 7 (a point-mass quantile
function), so transformed values are distinguishable from the zero
initialisation without any rational arithmetic. -/
def sevenMarg : Marginal := ⟨some (fun _ => 7)⟩

/-- A marginal that does not expose `icdf`. -/
def noIcdfMarg : Marginal := ⟨none⟩

/-- The engine state produced by constructing with one identity-`icdf`
distribution, `samples_number = 2` and the zero criterion. -/
def c1Engine : LHSEngine :=
  ⟨DistObject.ofList [idMarg], zeroCrit, 2, zeros 2 1, zeros 2 1⟩

/-- The engine state produced by constructing with a `JointIndependent` of a
capable and an `icdf`-less marginal, `samples_number = 2`. -/
def c2Engine : LHSEngine :=
  ⟨DistObject.jointIndependent [sevenMarg, noIcdfMarg], zeroCrit, 2, zeros 2 2, zeros 2 2⟩

/-- A pre-`run` engine state over a list of a capable and an `icdf`-less
marginal. -/
def cListEngine : LHSEngine :=
  ⟨DistObject.ofList [sevenMarg, noIcdfMarg], zeroCrit, 2, zeros 2 2, zeros 2 2⟩

/-- The state `run(5)` produces from `cListEngine`: column 0 transformed,
column 1 untouched, sample count updated. -/
def cListEngine2 : LHSEngine :=
  ⟨DistObject.ofList [sevenMarg, noIcdfMarg], zeroCrit, 5, [[7, 0], [7, 0]], zeros 2 2⟩

/-- The engine state produced by constructing with the flaky criterion
(whose next `generate_samples` call will raise). -/
def c3Engine : LHSEngine :=
  ⟨DistObject.ofList [sevenMarg], flakyCrit, 2, [[7], [7]], zeros 2 1⟩

/-- The state in which a failing `run(5)` on `c3Engine` leaves the engine:
`samples_number` already overwritten, matrices untouched. -/
def c3ErrEngine : LHSEngine :=
  ⟨DistObject.ofList [sevenMarg], flakyCrit, 5, [[7], [7]], zeros 2 1⟩

/-- The engine state produced by constructing with a `JointIndependent` of a
capable and an `icdf`-less marginal, `samples_number = 1`. -/
def c6Engine : LHSEngine :=
  ⟨DistObject.jointIndependent [sevenMarg, noIcdfMarg], zeroCrit, 1, zeros 1 2, zeros 1 2⟩

/-- A pre-`run` engine state over a `JointIndependent` whose single marginal
exposes `icdf`. -/
def c6WitEngine : LHSEngine :=
  ⟨DistObject.jointIndependent [sevenMarg], zeroCrit, 1, zeros 1 1, zeros 1 1⟩

/-- The state `run(3)` produces from `c6WitEngine`. -/
def c6WitEngine2 : LHSEngine :=
  ⟨DistObject.jointIndependent [sevenMarg], zeroCrit, 3, [[7]], zeros 1 1⟩

/-- A concrete marginal for the copula claims: has `cdf` and `pdf` but no
`log_pdf`. -/
def c7Marg : CMarginal := ⟨[], [], true, true, false⟩

/-- A concrete copula exposing both `evaluate_cdf` and `evaluate_pdf`. -/
def c7Cop : PCopula := ⟨[], [], true, true⟩

/-- The `JointCopula` state `__init__` produces from the bivariate marginal
list `[c7Marg, c7Marg]` and `c7Cop`. -/
def c7J : JointCopulaD := ⟨[c7Marg, c7Marg], c7Cop, [], true, true, false⟩

/-- A marginal whose parameter name `a_c` itself contains the underscore
separator and ends in the copula suffix letter. -/
def c8Marg : CMarginal := ⟨["a_c".toList], [("a_c".toList, 3)], true, true, true⟩

/-- A copula whose parameter name `a_0` itself looks like a marginal-indexed
identifier. -/
def c8Cop : PCopula := ⟨["a_0".toList], [("a_0".toList, 5)], true, true⟩

/-- A joint distribution with adversarially underscored parameter names. -/
def c8J : JointCopulaD := ⟨[c8Marg], c8Cop, ["a_c_0".toList, "a_0_c".toList], true, true, true⟩

/-- A marginal with two parameters, for the frame-effect claim. -/
def c10Marg : CMarginal :=
  ⟨["loc".toList, "scale".toList], [("loc".toList, 1), ("scale".toList, 2)], true, true, true⟩

/-- A copula with one parameter, for the frame-effect claim. -/
def c10Cop : PCopula := ⟨["theta".toList], [("theta".toList, 4)], true, true⟩

/-- A joint distribution for the frame-effect claim. -/
def c10J : JointCopulaD :=
  ⟨[c10Marg], c10Cop, ["loc_0".toList, "scale_0".toList, "theta_c".toList], true, true, true⟩

/-- A concrete list of optimizer results: starts scoring 3, 7, 7. -/
def mleResults : List OptResult := [⟨[1], -3⟩, ⟨[2], -7⟩, ⟨[3], -7⟩]

/-! ## Matrix lemmas -/

theorem zeros_isShape (n d : ℕ) : IsShape (zeros n d) n d := by
  refine ⟨by simp [zeros], fun row hrow => ?_⟩
  rw [List.eq_of_mem_replicate hrow]
  simp

theorem zerosLike_zeros (n d : ℕ) : zerosLike (zeros n d) = zeros n d := by
  simp [zerosLike, zeros, List.map_replicate]

theorem colCount_of_isShape {mat : Mat} {n d : ℕ} (h : IsShape mat n d)
    (hn : 0 < n) : colCount mat = d := by
  obtain ⟨h1, h2⟩ := h
  cases mat with
  | nil => simp at h1; omega
  | cons r t => simpa [colCount] using h2 r (by simp)

theorem getElem?_setColumn (s : Mat) (j : ℕ) (col : List ℚ) (i : ℕ) :
    (setColumn s j col)[i]? =
      match s[i]?, col[i]? with
      | some row, some v => some (row.set j v)
      | _, _ => none := by
  simp only [setColumn, List.getElem?_zipWith]
  rcases h1 : s[i]? with _ | row <;> rcases h2 : col[i]? with _ | v <;> simp

theorem setColumn_isShape {s : Mat} {n d : ℕ} (hs : IsShape s n d)
    {col : List ℚ} (hc : col.length = n) (j : ℕ) :
    IsShape (setColumn s j col) n d := by
  obtain ⟨h1, h2⟩ := hs
  constructor
  · simp [setColumn, h1, hc]
  · intro row hrow
    obtain ⟨i, hi⟩ := List.mem_iff_getElem?.1 hrow
    rw [getElem?_setColumn] at hi
    cases hrow0 : s[i]? with
    | none => rw [hrow0] at hi; simp at hi
    | some row0 =>
      cases hv : col[i]? with
      | none => rw [hrow0, hv] at hi; simp at hi
      | some v =>
        rw [hrow0, hv] at hi
        simp only [Option.some.injEq] at hi
        have hmem : row0 ∈ s := by
          rw [List.mem_iff_getElem?]; exact ⟨i, hrow0⟩
        rw [← hi, List.length_set]
        exact h2 row0 hmem

theorem entry_setColumn_ne {s : Mat} {col : List ℚ} {i j j' : ℕ}
    (hne : j' ≠ j) (hi : i < s.length) (hc : col.length = s.length) :
    entry (setColumn s j col) i j' = entry s i j' := by
  have hic : i < col.length := by omega
  have hrow := List.getElem?_eq_getElem hi
  have hv := List.getElem?_eq_getElem hic
  simp only [entry, List.getD_eq_getElem?_getD, getElem?_setColumn, hrow, hv,
    Option.getD_some]
  rw [List.getElem?_set_ne (Ne.symm hne)]

theorem entry_setColumn_self {s : Mat} {n d : ℕ} (hs : IsShape s n d)
    {col : List ℚ} (hc : col.length = n) {i j : ℕ} (hi : i < n) (hj : j < d) :
    entry (setColumn s j col) i j = col.getD i 0 := by
  obtain ⟨h1, h2⟩ := hs
  have his : i < s.length := by omega
  have hic : i < col.length := by omega
  have hrow := List.getElem?_eq_getElem his
  have hv := List.getElem?_eq_getElem hic
  have hrl : (s[i]).length = d := h2 _ (List.getElem_mem his)
  simp only [entry, List.getD_eq_getElem?_getD, getElem?_setColumn, hrow, hv,
    Option.getD_some]
  rw [List.getElem?_set_self (by omega)]
  simp

theorem length_column (u : Mat) (j : ℕ) : (column u j).length = u.length := by
  simp [column]

theorem getD_column {u : Mat} {i : ℕ} (hi : i < u.length) (j : ℕ) :
    (column u j).getD i 0 = entry u i j := by
  have hrow := List.getElem?_eq_getElem hi
  simp [column, entry, List.getD_eq_getElem?_getD, List.getElem?_map, hrow]

theorem map_isShape {u : Mat} {n d : ℕ} (hu : IsShape u n d) (f : ℚ → ℚ) :
    IsShape (u.map (fun row => row.map f)) n d := by
  obtain ⟨h1, h2⟩ := hu
  refine ⟨by simp [h1], fun row hrow => ?_⟩
  obtain ⟨row0, hmem, rfl⟩ := List.mem_map.1 hrow
  simp [h2 row0 hmem]

theorem entry_map {u : Mat} {n d : ℕ} (hu : IsShape u n d) (f : ℚ → ℚ)
    {i j : ℕ} (hi : i < n) (hj : j < d) :
    entry (u.map (fun row => row.map f)) i j = f (entry u i j) := by
  obtain ⟨h1, h2⟩ := hu
  have hiu : i < u.length := by omega
  have hrow := List.getElem?_eq_getElem hiu
  have hrl : (u[i]).length = d := h2 _ (List.getElem_mem hiu)
  have hjr : j < (u[i]).length := by omega
  have hv := List.getElem?_eq_getElem hjr
  simp [entry, List.getD_eq_getElem?_getD, List.getElem?_map, hrow, hv]

theorem getD_map_of_lt {l : List ℚ} {i : ℕ} (hi : i < l.length) (f : ℚ → ℚ) :
    (l.map f).getD i 0 = f (l.getD i 0) := by
  have h := List.getElem?_eq_getElem hi
  simp [List.getD_eq_getElem?_getD, List.getElem?_map, h]

/-! ## Transform loop lemmas -/

theorem transformStep_isShape {ms : List Marginal} {u s : Mat} {r d : ℕ}
    (hs : IsShape s r d) (hu : u.length = r) (j : ℕ) :
    IsShape (transformStep ms u s j) r d := by
  cases hm : ms[j]? with
  | none => simpa [transformStep, hm] using hs
  | some m =>
    cases hf : m.icdf with
    | none => simpa [transformStep, hm, hf] using hs
    | some f =>
      simp only [transformStep, hm, hf]
      exact setColumn_isShape hs (by simp [length_column, hu]) j

theorem entry_transformStep {ms : List Marginal} {u s : Mat} {r d : ℕ}
    (hs : IsShape s r d) (hu : u.length = r) {i : ℕ} (hi : i < r) {j : ℕ}
    (hj : j < d) (j' : ℕ) :
    entry (transformStep ms u s j) i j' =
      if j' = j then (applyIcdf ms j (entry u i j)).getD (entry s i j)
      else entry s i j' := by
  cases hm : ms[j]? with
  | none =>
    simp only [transformStep, applyIcdf, hm]
    by_cases hjj : j' = j <;> simp [hjj]
  | some m =>
    cases hf : m.icdf with
    | none =>
      simp only [transformStep, applyIcdf, hm, hf]
      by_cases hjj : j' = j <;> simp [hjj]
    | some f =>
      simp only [transformStep, applyIcdf, hm, hf]
      by_cases hjj : j' = j
      · subst hjj
        rw [if_pos rfl]
        rw [entry_setColumn_self hs (by simp [length_column, hu]) hi hj]
        rw [getD_map_of_lt (by simp [length_column, hu]; omega) f]
        rw [getD_column (by omega) j']
        simp
      · rw [if_neg hjj]
        refine entry_setColumn_ne hjj ?_ ?_
        · have := hs.1; omega
        · have h1 := hs.1; simp [length_column, hu, h1]

theorem foldl_transformStep_isShape {ms : List Marginal} {u : Mat} {r d : ℕ}
    (hu : u.length = r) (js : List ℕ) :
    ∀ {s : Mat}, IsShape s r d → IsShape (js.foldl (transformStep ms u) s) r d := by
  induction js with
  | nil => intro s hs; exact hs
  | cons a rest ih => intro s hs; exact ih (transformStep_isShape hs hu a)

theorem entry_foldl_transformStep (ms : List Marginal) {u : Mat} {r d : ℕ}
    (hu : u.length = r) {i : ℕ} (hi : i < r) (js : List ℕ) :
    ∀ {s : Mat}, IsShape s r d → (∀ x ∈ js, x < d) → ∀ j : ℕ,
      entry (js.foldl (transformStep ms u) s) i j =
        if j ∈ js then (applyIcdf ms j (entry u i j)).getD (entry s i j)
        else entry s i j := by
  induction js with
  | nil => intro s hs hjs j; simp
  | cons a rest ih =>
    intro s hs hjs j
    have ha : a < d := hjs a (List.mem_cons_self a rest)
    have hrest : ∀ x ∈ rest, x < d := fun x hx => hjs x (List.mem_cons_of_mem a hx)
    simp only [List.foldl_cons]
    rw [ih (transformStep_isShape hs hu a) hrest j]
    by_cases hjr : j ∈ rest
    · rw [if_pos hjr, if_pos (List.mem_cons_of_mem a hjr)]
      cases happ : applyIcdf ms j (entry u i j) with
      | some y => simp
      | none =>
        simp only [Option.getD_none]
        rw [entry_transformStep hs hu hi ha j]
        by_cases hja : j = a
        · subst hja; rw [if_pos rfl, happ]; simp
        · rw [if_neg hja]
    · rw [if_neg hjr]
      rw [entry_transformStep hs hu hi ha j]
      by_cases hja : j = a
      · subst hja
        rw [if_pos rfl, if_pos (List.mem_cons_self j rest)]
      · rw [if_neg hja, if_neg (by simp [List.mem_cons, hja, hjr])]

theorem transformLoop_isShape {ms : List Marginal} {u s : Mat} {r d : ℕ}
    (hs : IsShape s r d) (hu : u.length = r) :
    IsShape (transformLoop ms u s) r d :=
  foldl_transformStep_isShape hu (List.range ms.length) hs

theorem entry_transformLoop {ms : List Marginal} {u s : Mat} {r d : ℕ}
    (hs : IsShape s r d) (hu : u.length = r) (hd : ms.length ≤ d) {i : ℕ}
    (hi : i < r) (j : ℕ) :
    entry (transformLoop ms u s) i j =
      if j < ms.length then (applyIcdf ms j (entry u i j)).getD (entry s i j)
      else entry s i j := by
  have h := entry_foldl_transformStep ms hu hi (List.range ms.length) hs
    (fun x hx => lt_of_lt_of_le (List.mem_range.1 hx) hd) j
  simpa [transformLoop, List.mem_range] using h

theorem transformJoint_isShape {ms : List Marginal} {u s : Mat} {r d : ℕ}
    (hs : IsShape s r d) (hu : u.length = r) :
    IsShape (transformJoint ms u s) r d := by
  unfold transformJoint
  by_cases hall : ms.all (fun m => m.icdf.isSome)
  · rw [if_pos hall]; exact transformLoop_isShape hs hu
  · rw [if_neg hall]; exact hs

theorem transformJoint_of_all {ms : List Marginal} {u s : Mat}
    (hall : ms.all (fun m => m.icdf.isSome) = true) :
    transformJoint ms u s = transformLoop ms u s := by
  simp [transformJoint, hall]

theorem transformJoint_of_not_all {ms : List Marginal} {u s : Mat}
    (hall : ms.all (fun m => m.icdf.isSome) = false) :
    transformJoint ms u s = s := by
  simp [transformJoint, hall]

/-! ## `run` and `__init__` lemmas -/

theorem runLHS_eq (e : LHSEngine) (m : ℕ) :
    runLHS e m =
      match e.criterion.gen e.samples with
      | Except.error msg => ({ e with samples_number := m }, some msg)
      | Except.ok u =>
        match e.dist_object with
        | DistObject.ofList ms =>
            ({ e with samples_number := m, samplesU01 := u, samples := transformLoop ms u e.samples }, none)
        | DistObject.jointIndependent ms =>
            ({ e with samples_number := m, samplesU01 := u, samples := transformJoint ms u e.samples }, none)
        | DistObject.continuous1D mg =>
          match mg.icdf with
          | some f =>
              ({ e with samples_number := m, samplesU01 := u, samples := u.map (fun row => row.map f) }, none)
          | none => ({ e with samples_number := m, samplesU01 := u }, none) :=
  rfl

theorem runLHS_gen_error {e : LHSEngine} {m : ℕ} {msg : String}
    (hg : e.criterion.gen e.samples = Except.error msg) :
    runLHS e m = ({ e with samples_number := m }, some msg) := by
  rw [runLHS_eq, hg]

theorem runLHS_gen_ok_list {e : LHSEngine} {m : ℕ} {u : Mat} {ms : List Marginal}
    (hg : e.criterion.gen e.samples = Except.ok u)
    (hd : e.dist_object = DistObject.ofList ms) :
    runLHS e m =
      ({ e with samples_number := m, samplesU01 := u, samples := transformLoop ms u e.samples }, none) := by
  rw [runLHS_eq, hg, hd]

theorem runLHS_gen_ok_joint {e : LHSEngine} {m : ℕ} {u : Mat} {ms : List Marginal}
    (hg : e.criterion.gen e.samples = Except.ok u)
    (hd : e.dist_object = DistObject.jointIndependent ms) :
    runLHS e m =
      ({ e with samples_number := m, samplesU01 := u, samples := transformJoint ms u e.samples }, none) := by
  rw [runLHS_eq, hg, hd]

theorem runLHS_gen_ok_single {e : LHSEngine} {m : ℕ} {u : Mat} {mg : Marginal}
    {f : ℚ → ℚ} (hg : e.criterion.gen e.samples = Except.ok u)
    (hd : e.dist_object = DistObject.continuous1D mg) (hf : mg.icdf = some f) :
    runLHS e m =
      ({ e with samples_number := m, samplesU01 := u, samples := u.map (fun row => row.map f) }, none) := by
  rw [runLHS_eq, hg, hd]
  simp [hf]

theorem runLHS_gen_ok_single_none {e : LHSEngine} {m : ℕ} {u : Mat}
    {mg : Marginal} (hg : e.criterion.gen e.samples = Except.ok u)
    (hd : e.dist_object = DistObject.continuous1D mg) (hf : mg.icdf = none) :
    runLHS e m = ({ e with samples_number := m, samplesU01 := u }, none) := by
  rw [runLHS_eq, hg, hd]
  simp [hf]

theorem runLHS_err_elim {e : LHSEngine} {m : ℕ} {e' : LHSEngine} {msg : String}
    (h : runLHS e m = (e', some msg)) :
    e.criterion.gen e.samples = Except.error msg ∧
      e' = { e with samples_number := m } := by
  cases hg : e.criterion.gen e.samples with
  | error msg2 =>
    rw [runLHS_gen_error hg] at h
    simp only [Prod.mk.injEq, Option.some.injEq] at h
    exact ⟨by rw [h.2], h.1.symm⟩
  | ok u =>
    exfalso
    cases hd : e.dist_object with
    | ofList ms => rw [runLHS_gen_ok_list hg hd] at h; simp at h
    | jointIndependent ms => rw [runLHS_gen_ok_joint hg hd] at h; simp at h
    | continuous1D mg =>
      cases hf : mg.icdf with
      | some f => rw [runLHS_gen_ok_single hg hd hf] at h; simp at h
      | none => rw [runLHS_gen_ok_single_none hg hd hf] at h; simp at h

theorem runLHS_ok_shape {e : LHSEngine} {m : ℕ} {e' : LHSEngine} {r d : ℕ}
    (hl : e.criterion.Lawful) (hs : IsShape e.samples r d) (hr : 0 < r)
    (h : runLHS e m = (e', none)) :
    e'.samples_number = m ∧ IsShape e'.samples r d ∧
      IsShape e'.samplesU01 r d ∧ e'.dist_object = e.dist_object ∧
      e'.criterion = e.criterion := by
  cases hg : e.criterion.gen e.samples with
  | error msg => rw [runLHS_gen_error hg] at h; simp at h
  | ok u =>
    have hu : IsShape u r d := by
      have h2 := hl e.samples u hg
      have hrc : rowCount e.samples = r := hs.1
      have hcc : colCount e.samples = d := colCount_of_isShape hs hr
      rwa [hrc, hcc] at h2
    have hul : u.length = r := hu.1
    cases hd : e.dist_object with
    | ofList ms =>
      rw [runLHS_gen_ok_list hg hd] at h
      simp only [Prod.mk.injEq, and_true] at h
      rw [← h]
      exact ⟨rfl, transformLoop_isShape hs hul, hu, hd, rfl⟩
    | jointIndependent ms =>
      rw [runLHS_gen_ok_joint hg hd] at h
      simp only [Prod.mk.injEq, and_true] at h
      rw [← h]
      exact ⟨rfl, transformJoint_isShape hs hul, hu, hd, rfl⟩
    | continuous1D mg =>
      cases hf : mg.icdf with
      | some f =>
        rw [runLHS_gen_ok_single hg hd hf] at h
        simp only [Prod.mk.injEq, and_true] at h
        rw [← h]
        exact ⟨rfl, map_isShape hu f, hu, hd, rfl⟩
      | none =>
        rw [runLHS_gen_ok_single_none hg hd hf] at h
        simp only [Prod.mk.injEq, and_true] at h
        rw [← h]
        exact ⟨rfl, hs, hu, hd, rfl⟩

theorem lhsInit_eq (dist : DistObject) (n : Int) (crit : Criterion)
    (hn : ¬ n ≤ 0) :
    lhsInit (some dist) n crit =
      (match runLHS ⟨dist, crit, n.toNat, zeros n.toNat (dimsOf dist),
          zeros n.toNat (dimsOf dist)⟩ n.toNat with
       | (e1, none) => Except.ok e1
       | (_, some msg) => Except.error msg) := by
  cases dist <;> simp only [lhsInit, if_neg hn, dimsOf, zerosLike_zeros]

theorem lhsInit_ok_elim {dist : DistObject} {n : Int} {crit : Criterion}
    {e : LHSEngine} (h : lhsInit (some dist) n crit = Except.ok e) :
    0 < n ∧
      runLHS ⟨dist, crit, n.toNat, zeros n.toNat (dimsOf dist),
        zeros n.toNat (dimsOf dist)⟩ n.toNat = (e, none) := by
  by_cases hn : n ≤ 0
  · simp only [lhsInit] at h
    rw [if_pos hn] at h
    simp at h
  · rw [lhsInit_eq dist n crit hn] at h
    refine ⟨by omega, ?_⟩
    cases hrun : runLHS ⟨dist, crit, n.toNat, zeros n.toNat (dimsOf dist),
        zeros n.toNat (dimsOf dist)⟩ n.toNat with
    | mk e1 err =>
      rw [hrun] at h
      cases err with
      | none => simp only [Except.ok.injEq] at h; rw [h]
      | some msg => simp at h

theorem runLHS_snd_of_gen_ok {e : LHSEngine} {m : ℕ} {u : Mat}
    (hg : e.criterion.gen e.samples = Except.ok u) : (runLHS e m).2 = none := by
  cases hd : e.dist_object with
  | ofList ms => rw [runLHS_gen_ok_list hg hd]
  | jointIndependent ms => rw [runLHS_gen_ok_joint hg hd]
  | continuous1D mg =>
    cases hf : mg.icdf with
    | some f => rw [runLHS_gen_ok_single hg hd hf]
    | none => rw [runLHS_gen_ok_single_none hg hd hf]

theorem zeroCrit_lawful : zeroCrit.Lawful := by
  intro mat u hu
  simp only [zeroCrit] at hu
  injection hu with h
  rw [← h]
  exact zeros_isShape _ _

theorem applyIcdf_some {ms : List Marginal} {j : ℕ} {mg : Marginal}
    {f : ℚ → ℚ} (hm : ms[j]? = some mg) (hf : mg.icdf = some f) (x : ℚ) :
    applyIcdf ms j x = some (f x) := by
  simp [applyIcdf, hm, hf]

theorem applyIcdf_none {ms : List Marginal} {j : ℕ} {mg : Marginal}
    (hm : ms[j]? = some mg) (hf : mg.icdf = none) (x : ℚ) :
    applyIcdf ms j x = none := by
  simp [applyIcdf, hm, hf]

theorem entry_run_list {e : LHSEngine} {m : ℕ} {e2 : LHSEngine} {r d : ℕ}
    {ms : List Marginal} (hl : e.criterion.Lawful) (hs : IsShape e.samples r d)
    (hr : 0 < r) (h : runLHS e m = (e2, none))
    (hd : e.dist_object = DistObject.ofList ms) (hmd : ms.length ≤ d)
    {i : ℕ} (hi : i < r) (j : ℕ) :
    entry e2.samples i j =
      if j < ms.length then
        (applyIcdf ms j (entry e2.samplesU01 i j)).getD (entry e.samples i j)
      else entry e.samples i j := by
  cases hg : e.criterion.gen e.samples with
  | error msg => rw [runLHS_gen_error hg] at h; simp at h
  | ok u =>
    have hu : IsShape u r d := by
      have h2 := hl e.samples u hg
      have hrc : rowCount e.samples = r := hs.1
      have hcc : colCount e.samples = d := colCount_of_isShape hs hr
      rwa [hrc, hcc] at h2
    rw [runLHS_gen_ok_list hg hd] at h
    simp only [Prod.mk.injEq, and_true] at h
    rw [← h]
    show entry (transformLoop ms u e.samples) i j =
      if j < ms.length then (applyIcdf ms j (entry u i j)).getD (entry e.samples i j)
      else entry e.samples i j
    exact entry_transformLoop hs hu.1 hmd hi j

theorem entry_run_joint {e : LHSEngine} {m : ℕ} {e2 : LHSEngine} {r d : ℕ}
    {ms : List Marginal} (hl : e.criterion.Lawful) (hs : IsShape e.samples r d)
    (hr : 0 < r) (h : runLHS e m = (e2, none))
    (hd : e.dist_object = DistObject.jointIndependent ms) (hmd : ms.length ≤ d)
    (hall : ms.all (fun mg => mg.icdf.isSome) = true)
    {i : ℕ} (hi : i < r) (j : ℕ) :
    entry e2.samples i j =
      if j < ms.length then
        (applyIcdf ms j (entry e2.samplesU01 i j)).getD (entry e.samples i j)
      else entry e.samples i j := by
  cases hg : e.criterion.gen e.samples with
  | error msg => rw [runLHS_gen_error hg] at h; simp at h
  | ok u =>
    have hu : IsShape u r d := by
      have h2 := hl e.samples u hg
      have hrc : rowCount e.samples = r := hs.1
      have hcc : colCount e.samples = d := colCount_of_isShape hs hr
      rwa [hrc, hcc] at h2
    rw [runLHS_gen_ok_joint hg hd] at h
    simp only [Prod.mk.injEq, and_true] at h
    rw [← h]
    show entry (transformJoint ms u e.samples) i j =
      if j < ms.length then (applyIcdf ms j (entry u i j)).getD (entry e.samples i j)
      else entry e.samples i j
    rw [transformJoint_of_all hall]
    exact entry_transformLoop hs hu.1 hmd hi j

theorem run_joint_not_all {e : LHSEngine} {m : ℕ} {e2 : LHSEngine}
    {ms : List Marginal} (h : runLHS e m = (e2, none))
    (hd : e.dist_object = DistObject.jointIndependent ms)
    (hall : ms.all (fun mg => mg.icdf.isSome) = false) :
    e2.samples = e.samples := by
  cases hg : e.criterion.gen e.samples with
  | error msg => rw [runLHS_gen_error hg] at h; simp at h
  | ok u =>
    rw [runLHS_gen_ok_joint hg hd] at h
    simp only [Prod.mk.injEq, and_true] at h
    rw [← h]
    show transformJoint ms u e.samples = e.samples
    exact transformJoint_of_not_all hall

theorem entry_run_single {e : LHSEngine} {m : ℕ} {e2 : LHSEngine} {r d : ℕ}
    {mg : Marginal} {f : ℚ → ℚ} (hl : e.criterion.Lawful)
    (hs : IsShape e.samples r d) (hr : 0 < r) (h : runLHS e m = (e2, none))
    (hd : e.dist_object = DistObject.continuous1D mg) (hf : mg.icdf = some f)
    {i j : ℕ} (hi : i < r) (hj : j < d) :
    entry e2.samples i j = f (entry e2.samplesU01 i j) := by
  cases hg : e.criterion.gen e.samples with
  | error msg => rw [runLHS_gen_error hg] at h; simp at h
  | ok u =>
    have hu : IsShape u r d := by
      have h2 := hl e.samples u hg
      have hrc : rowCount e.samples = r := hs.1
      have hcc : colCount e.samples = d := colCount_of_isShape hs hr
      rwa [hrc, hcc] at h2
    rw [runLHS_gen_ok_single hg hd hf] at h
    simp only [Prod.mk.injEq, and_true] at h
    rw [← h]
    show entry (u.map (fun row => row.map f)) i j = f (entry u i j)
    exact entry_map hu f hi hj

/-! ## MLE fold lemmas -/

theorem saveResult_some_eq (a t : List ℚ × ℚ) :
    saveResult (some a) t = if t.2 > a.2 then some t else some a := by
  obtain ⟨m, v⟩ := a
  rfl

theorem foldl_saveResult_some :
    ∀ (rest : List (List ℚ × ℚ)) (a : List ℚ × ℚ),
    (rest.foldl saveResult (some a) = some a ∧ ∀ t ∈ rest, t.2 ≤ a.2) ∨
    (∃ k, ∃ hk : k < rest.length,
      rest.foldl saveResult (some a) = some (rest.get ⟨k, hk⟩) ∧
      a.2 < (rest.get ⟨k, hk⟩).2 ∧
      (∀ t ∈ rest, t.2 ≤ (rest.get ⟨k, hk⟩).2) ∧
      (∀ k2, ∀ hk2 : k2 < rest.length, k2 < k →
        (rest.get ⟨k2, hk2⟩).2 < (rest.get ⟨k, hk⟩).2)) := by
  intro rest
  induction rest with
  | nil => intro a; exact Or.inl ⟨rfl, by simp⟩
  | cons t rr ih =>
    intro a
    rw [List.foldl_cons, saveResult_some_eq]
    by_cases ht : t.2 > a.2
    · rw [if_pos ht]
      rcases ih t with ⟨heq, hall⟩ | ⟨k, hk, heq, hat, hall, hearly⟩
      · refine Or.inr ⟨0, by simp, heq, ht, ?_, ?_⟩
        · intro x hx
          rcases List.mem_cons.1 hx with rfl | hx2
          · exact le_refl _
          · exact hall x hx2
        · intro k2 hk2 hlt
          omega
      · refine Or.inr ⟨k + 1, by simpa using hk, heq, lt_trans ht hat, ?_, ?_⟩
        · intro x hx
          rcases List.mem_cons.1 hx with rfl | hx2
          · exact le_of_lt hat
          · exact hall x hx2
        · intro k2 hk2 hlt
          cases k2 with
          | zero => exact hat
          | succ k3 =>
            exact hearly k3 (by simpa using hk2) (by omega)
    · rw [if_neg ht]
      have hta : t.2 ≤ a.2 := le_of_not_lt ht
      rcases ih a with ⟨heq, hall⟩ | ⟨k, hk, heq, hat, hall, hearly⟩
      · refine Or.inl ⟨heq, ?_⟩
        intro x hx
        rcases List.mem_cons.1 hx with rfl | hx2
        · exact hta
        · exact hall x hx2
      · refine Or.inr ⟨k + 1, by simpa using hk, heq, hat, ?_, ?_⟩
        · intro x hx
          rcases List.mem_cons.1 hx with rfl | hx2
          · exact le_of_lt (lt_of_le_of_lt hta hat)
          · exact hall x hx2
        · intro k2 hk2 hlt
          cases k2 with
          | zero => exact lt_of_le_of_lt hta hat
          | succ k3 =>
            exact hearly k3 (by simpa using hk2) (by omega)

theorem foldl_saveResult_none (l : List (List ℚ × ℚ)) (h : l ≠ []) :
    ∃ k, ∃ hk : k < l.length,
      l.foldl saveResult none = some (l.get ⟨k, hk⟩) ∧
      (∀ t ∈ l, t.2 ≤ (l.get ⟨k, hk⟩).2) ∧
      (∀ k2, ∀ hk2 : k2 < l.length, k2 < k →
        (l.get ⟨k2, hk2⟩).2 < (l.get ⟨k, hk⟩).2) := by
  cases l with
  | nil => exact absurd rfl h
  | cons t rest =>
    have h0 : (t :: rest).foldl saveResult none = rest.foldl saveResult (some t) := rfl
    rcases foldl_saveResult_some rest t with ⟨heq, hall⟩ | ⟨k, hk, heq, hat, hall, hearly⟩
    · refine ⟨0, by simp, by rw [h0, heq]; rfl, ?_, ?_⟩
      · intro x hx
        rcases List.mem_cons.1 hx with rfl | hx2
        · exact le_refl _
        · exact hall x hx2
      · intro k2 hk2 hlt
        omega
    · refine ⟨k + 1, by simpa using hk, by rw [h0, heq]; rfl, ?_, ?_⟩
      · intro x hx
        rcases List.mem_cons.1 hx with rfl | hx2
        · exact le_of_lt hat
        · exact hall x hx2
      · intro k2 hk2 hlt
        cases k2 with
        | zero => exact hat
        | succ k3 =>
          exact hearly k3 (by simpa using hk2) (by omega)

theorem foldl_saveResult_mem :
    ∀ (l : List (List ℚ × ℚ)) (st : Option (List ℚ × ℚ)) (b : List ℚ × ℚ),
      l.foldl saveResult st = some b → st = some b ∨ b ∈ l := by
  intro l
  induction l with
  | nil => intro st b hb; exact Or.inl hb
  | cons t rest ih =>
    intro st b hb
    rw [List.foldl_cons] at hb
    rcases ih (saveResult st t) b hb with h2 | h2
    · cases st with
      | none =>
        have h4 : (some t : Option (List ℚ × ℚ)) = some b := h2
        rw [Option.some.injEq] at h4
        exact Or.inr (h4 ▸ List.mem_cons_self t rest)
      | some a =>
        rw [saveResult_some_eq] at h2
        by_cases ht : t.2 > a.2
        · rw [if_pos ht] at h2
          injection h2 with h5
          exact Or.inr (h5 ▸ List.mem_cons_self t rest)
        · rw [if_neg ht] at h2
          exact Or.inl h2
    · exact Or.inr (List.mem_cons_of_mem t h2)

theorem runOptimizationMLE_eq_fit (st : Option (List ℚ × ℚ))
    (results : List OptResult) :
    runOptimizationMLE st results =
      runDistributionFitMLE st (results.map (fun res => (res.x, (-1) * res.fn))) := by
  unfold runOptimizationMLE runDistributionFitMLE
  rw [List.foldl_map]

/-! ## Claim C9 -/

/-- C9: over any nonempty sequence of optimizer results processed by the
save step of `_run_optimization`, the final `max_log_like` is the maximum of
`(-1) * res.fun` over all starts, the stored `mle` is the result of the
earliest start achieving that maximum (every earlier start scores strictly
less, since a later start replaces the stored pair only on strict
improvement), the retained best score is non-decreasing as further starts
are processed (prefix monotonicity), and `_run_distribution_fit` applies the
identical save step to its fit trials. -/
theorem claim_C9 (results : List OptResult) (h : results ≠ []) :
    (∃ k, ∃ hk : k < results.length,
      runOptimizationMLE none results
          = some ((results.get ⟨k, hk⟩).x, (-1) * (results.get ⟨k, hk⟩).fn) ∧
      (∀ res ∈ results, (-1) * res.fn ≤ (-1) * (results.get ⟨k, hk⟩).fn) ∧
      (∀ k2, ∀ hk2 : k2 < results.length, k2 < k →
        (-1) * (results.get ⟨k2, hk2⟩).fn < (-1) * (results.get ⟨k, hk⟩).fn) ∧
      (∀ pre post a, results = pre ++ post →
        runOptimizationMLE none pre = some a →
        a.2 ≤ (-1) * (results.get ⟨k, hk⟩).fn)) ∧
    (∀ st results2, runOptimizationMLE st results2
        = runDistributionFitMLE st (results2.map (fun res => (res.x, (-1) * res.fn)))) := by
  have hmap : results.map (fun res => (res.x, (-1) * res.fn)) ≠ [] := by
    cases results with
    | nil => exact absurd rfl h
    | cons t rest => simp
  obtain ⟨k, hk, heq, hall, hearly⟩ := foldl_saveResult_none _ hmap
  have hkr : k < results.length := by simpa using hk
  have hget : (results.map (fun res => (res.x, (-1) * res.fn))).get ⟨k, hk⟩
      = ((results.get ⟨k, hkr⟩).x, (-1) * (results.get ⟨k, hkr⟩).fn) := by
    simp [List.get_eq_getElem]
  refine ⟨⟨k, hkr, ?_, ?_, ?_, ?_⟩, runOptimizationMLE_eq_fit⟩
  · rw [runOptimizationMLE_eq_fit]
    show (results.map (fun res => (res.x, (-1) * res.fn))).foldl saveResult none = _
    rw [heq, hget]
  · intro res hres
    have h2 := hall _ (List.mem_map_of_mem _ hres)
    rw [hget] at h2
    simpa using h2
  · intro k2 hk2b hlt
    have hk2m : k2 < (results.map (fun res => (res.x, (-1) * res.fn))).length := by
      simpa using hk2b
    have h2 := hearly k2 hk2m hlt
    have hget2 : (results.map (fun res => (res.x, (-1) * res.fn))).get ⟨k2, hk2m⟩
        = ((results.get ⟨k2, hk2b⟩).x, (-1) * (results.get ⟨k2, hk2b⟩).fn) := by
      simp [List.get_eq_getElem]
    rw [hget, hget2] at h2
    simpa using h2
  · intro pre post a hsplit hpre
    rw [runOptimizationMLE_eq_fit] at hpre
    have hpre2 : (pre.map (fun res => (res.x, (-1) * res.fn))).foldl saveResult none
        = some a := hpre
    rcases foldl_saveResult_mem _ none a hpre2 with h2 | h2
    · exact absurd h2 (by simp)
    · have hmem : a ∈ results.map (fun res => (res.x, (-1) * res.fn)) := by
        rw [hsplit, List.map_append]
        exact List.mem_append_left _ h2
      have h3 := hall a hmem
      rw [hget] at h3
      exact h3

/-- Witness for C9 at `mleResults`. -/
theorem claim_C9_witness :
    mleResults ≠ [] ∧
      ((∃ k, ∃ hk : k < mleResults.length,
        runOptimizationMLE none mleResults
            = some ((mleResults.get ⟨k, hk⟩).x, (-1) * (mleResults.get ⟨k, hk⟩).fn) ∧
        (∀ res ∈ mleResults, (-1) * res.fn ≤ (-1) * (mleResults.get ⟨k, hk⟩).fn) ∧
        (∀ k2, ∀ hk2 : k2 < mleResults.length, k2 < k →
          (-1) * (mleResults.get ⟨k2, hk2⟩).fn < (-1) * (mleResults.get ⟨k, hk⟩).fn) ∧
        (∀ pre post a, mleResults = pre ++ post →
          runOptimizationMLE none pre = some a →
          a.2 ≤ (-1) * (mleResults.get ⟨k, hk⟩).fn)) ∧
      (∀ st results2, runOptimizationMLE st results2
          = runDistributionFitMLE st (results2.map (fun res => (res.x, (-1) * res.fn))))) :=
  ⟨List.cons_ne_nil _ _, claim_C9 mleResults (List.cons_ne_nil _ _)⟩

/-! ## Claim C1 -/

/-- C1 (counterexample): after constructing an engine with `samples_number =
2` and calling `run(3)`, the run succeeds, `samples_number` is `3`, but both
matrices keep their 2-row shape — `run` builds the stratification bins from
the shape of the existing `samples` matrix, so a re-run with a different
`samples_number` does not produce matrices of the new shape, refuting the
claimed shape invariant for repeated `run` calls. -/
theorem claim_C1_counterexample :
    lhsInit (some (DistObject.ofList [idMarg])) 2 zeroCrit = Except.ok c1Engine ∧
      (runLHS c1Engine 3).2 = none ∧
      (runLHS c1Engine 3).1.samples_number = 3 ∧
      rowCount (runLHS c1Engine 3).1.samplesU01 = 2 ∧
      rowCount (runLHS c1Engine 3).1.samples = 2 ∧
      ¬ IsShape (runLHS c1Engine 3).1.samplesU01 3 1 :=
  ⟨rfl, rfl, rfl, rfl, rfl, by decide⟩

/-- C1 (amended): after construction with `samples_number = n` the two
matrices have identical shape `(n, dimensions)`; every later successful
`run(m)` sets `samples_number := m` but regenerates both matrices at the
engine's existing row count `n` — full replacement (no residual rows)
happens at the old shape, and the claimed `(m, dimensions)` shape holds only
when `m` equals the current row count. -/
theorem claim_C1_amended {dist : DistObject} {n : Int} {crit : Criterion}
    {e : LHSEngine} (hl : crit.Lawful)
    (h : lhsInit (some dist) n crit = Except.ok e) :
    IsShape e.samples n.toNat (dimsOf dist) ∧
      IsShape e.samplesU01 n.toNat (dimsOf dist) ∧ e.samples_number = n.toNat ∧
      ∀ m e2, runLHS e m = (e2, none) →
        e2.samples_number = m ∧ IsShape e2.samples n.toNat (dimsOf dist) ∧
          IsShape e2.samplesU01 n.toNat (dimsOf dist) := by
  obtain ⟨hn, hrun⟩ := lhsInit_ok_elim h
  have hnn : 0 < n.toNat := by omega
  have hsh := runLHS_ok_shape hl (zeros_isShape n.toNat (dimsOf dist)) hnn hrun
  obtain ⟨hm, hsam, hu01, hdist, hcrit⟩ := hsh
  refine ⟨hsam, hu01, hm, ?_⟩
  intro m e2 hr2
  have hl2 : e.criterion.Lawful := by rw [hcrit]; exact hl
  have h2 := runLHS_ok_shape hl2 hsam hnn hr2
  exact ⟨h2.1, h2.2.1, h2.2.2.1⟩

/-- Witness for C1 (amended) at the concretely constructed engine. -/
theorem claim_C1_amended_witness :
    IsShape c1Engine.samples 2 1 ∧ IsShape c1Engine.samplesU01 2 1 ∧
      c1Engine.samples_number = 2 :=
  ⟨(@claim_C1_amended (DistObject.ofList [idMarg]) 2 zeroCrit c1Engine
      zeroCrit_lawful rfl).1,
   (@claim_C1_amended (DistObject.ofList [idMarg]) 2 zeroCrit c1Engine
      zeroCrit_lawful rfl).2.1,
   (@claim_C1_amended (DistObject.ofList [idMarg]) 2 zeroCrit c1Engine
      zeroCrit_lawful rfl).2.2.1⟩

/-! ## Claim C2 -/

/-- C2 (counterexample): in a `JointIndependent` design with one marginal
exposing `icdf` and one without, `run` transforms nothing — dimension 0's
column is left at zero although its own marginal exposes `icdf` (its
transform would give 7), so a dimension's transform does not depend only on
its own marginal's capability. -/
theorem claim_C2_counterexample :
    lhsInit (some (DistObject.jointIndependent [sevenMarg, noIcdfMarg])) 2 zeroCrit
        = Except.ok c2Engine ∧
      sevenMarg.icdf = some (fun _ => 7) ∧
      entry c2Engine.samples 0 0 ≠ (fun _ => (7 : ℚ)) (entry c2Engine.samplesU01 0 0) :=
  ⟨rfl, rfl, by decide⟩

/-- C2 (amended): for a list of distributions each dimension transforms
independently — a dimension with `icdf` gets `samples[:, j] =
icdf_j(samplesU01[:, j])` and a dimension without `icdf` keeps its prior
(zero-initialised) column; for a `JointIndependent`, the transform is
all-or-nothing — every column transforms when every marginal exposes
`icdf`, and otherwise `samples` is left entirely untransformed, including
the columns whose own marginal is capable. -/
theorem claim_C2_amended {e : LHSEngine} {m : ℕ} {e2 : LHSEngine} {r d : ℕ}
    (hl : e.criterion.Lawful) (hs : IsShape e.samples r d) (hr : 0 < r)
    (h : runLHS e m = (e2, none)) :
    (∀ ms, e.dist_object = DistObject.ofList ms → ms.length ≤ d →
      ∀ j mg, ms[j]? = some mg →
        (∀ f, mg.icdf = some f → ∀ i, i < r →
           entry e2.samples i j = f (entry e2.samplesU01 i j)) ∧
        (mg.icdf = none → ∀ i, i < r →
           entry e2.samples i j = entry e.samples i j)) ∧
    (∀ ms, e.dist_object = DistObject.jointIndependent ms → ms.length ≤ d →
      ms.all (fun mg => mg.icdf.isSome) = true →
      ∀ j mg, ms[j]? = some mg → ∀ f, mg.icdf = some f → ∀ i, i < r →
        entry e2.samples i j = f (entry e2.samplesU01 i j)) ∧
    (∀ ms, e.dist_object = DistObject.jointIndependent ms →
      ms.all (fun mg => mg.icdf.isSome) = false → e2.samples = e.samples) := by
  refine ⟨?_, ?_, ?_⟩
  · intro ms hd hmd j mg hmg
    obtain ⟨hj, _⟩ := List.getElem?_eq_some.1 hmg
    constructor
    · intro f hf i hi
      have hthis := entry_run_list hl hs hr h hd hmd hi j
      rw [if_pos hj, applyIcdf_some hmg hf] at hthis
      simpa using hthis
    · intro hf i hi
      have hthis := entry_run_list hl hs hr h hd hmd hi j
      rw [if_pos hj, applyIcdf_none hmg hf] at hthis
      simpa using hthis
  · intro ms hd hmd hall j mg hmg f hf i hi
    obtain ⟨hj, _⟩ := List.getElem?_eq_some.1 hmg
    have hthis := entry_run_joint hl hs hr h hd hmd hall hi j
    rw [if_pos hj, applyIcdf_some hmg hf] at hthis
    simpa using hthis
  · intro ms hd hall
    exact run_joint_not_all h hd hall

/-- Witness for C2 (amended): running the mixed-capability list design
transforms column 0 through its marginal and leaves column 1 at its prior
value. -/
theorem claim_C2_amended_witness :
    entry cListEngine2.samples 0 0 = (fun _ => (7 : ℚ)) (entry cListEngine2.samplesU01 0 0) ∧
      entry cListEngine2.samples 0 1 = entry cListEngine.samples 0 1 :=
  ⟨((@claim_C2_amended cListEngine 5 cListEngine2 2 2 zeroCrit_lawful
        (by decide) (by decide) rfl).1
      [sevenMarg, noIcdfMarg] rfl (by decide) 0 sevenMarg rfl).1
      (fun _ => 7) rfl 0 (by decide),
   ((@claim_C2_amended cListEngine 5 cListEngine2 2 2 zeroCrit_lawful
        (by decide) (by decide) rfl).1
      [sevenMarg, noIcdfMarg] rfl (by decide) 1 noIcdfMarg rfl).2
      rfl 0 (by decide)⟩

/-! ## Claim C3 -/

/-- C3 (counterexample): a reachable engine whose next `run(5)` raises (the
criterion raises) is left with `samples_number = 5` although it was `2`
before the call — the engine state is not left unchanged by a failing
`run`, refuting the claimed all-or-nothing error behaviour. -/
theorem claim_C3_counterexample :
    lhsInit (some (DistObject.ofList [sevenMarg])) 2 flakyCrit = Except.ok c3Engine ∧
      (runLHS c3Engine 5).2 = some "criterion raised" ∧
      c3Engine.samples_number = 2 ∧
      (runLHS c3Engine 5).1.samples_number = 5 :=
  ⟨rfl, by decide, rfl, by decide⟩

/-- C3 (amended): `run` assigns `samples_number` before invoking the
criterion, so when the criterion raises, the run leaves `samples` and
`samplesU01` (and the distribution and criterion) unchanged but
`samples_number` already holds the new value. -/
theorem claim_C3_amended {e : LHSEngine} {m : ℕ} {e2 : LHSEngine}
    {msg : String} (h : runLHS e m = (e2, some msg)) :
    e2.samples = e.samples ∧ e2.samplesU01 = e.samplesU01 ∧
      e2.samples_number = m ∧ e2.dist_object = e.dist_object ∧
      e2.criterion = e.criterion ∧
      e.criterion.gen e.samples = Except.error msg := by
  obtain ⟨hg, he⟩ := runLHS_err_elim h
  rw [he]
  exact ⟨rfl, rfl, rfl, rfl, rfl, hg⟩

/-- Witness for C3 (amended) at the flaky-criterion engine. -/
theorem claim_C3_amended_witness :
    c3ErrEngine.samples = c3Engine.samples ∧
      c3ErrEngine.samplesU01 = c3Engine.samplesU01 ∧
      c3ErrEngine.samples_number = 5 ∧
      c3ErrEngine.dist_object = c3Engine.dist_object ∧
      c3ErrEngine.criterion = c3Engine.criterion ∧
      c3Engine.criterion.gen c3Engine.samples = Except.error "criterion raised" :=
  claim_C3_amended rfl

/-! ## Claim C4 -/

/-- C4 (counterexample): a single `DistributionContinuous1D` that does not
expose `icdf` is accepted — construction succeeds instead of raising, so the
constructor does not require the `icdf` capability the claim demands. -/
theorem claim_C4_counterexample :
    noIcdfMarg.icdf = none ∧
      (lhsInit (some (DistObject.continuous1D noIcdfMarg)) 2 zeroCrit).isOk = true :=
  ⟨rfl, by decide⟩

/-- C4 (amended): the constructor raises exactly for the inputs `beartype`
rejects — a `distributions` argument that is not a `Distribution` or a list
of `Distribution`s, or a non-positive `samples_number`; an accepted
`distributions` needs no `icdf` capability, and construction then succeeds
whenever the criterion succeeds on the freshly allocated design. -/
theorem claim_C4_amended (dist : DistObject) (n : Int) (crit : Criterion) :
    (∀ n2 c2, (lhsInit none n2 c2).isOk = false) ∧
      (n ≤ 0 → (lhsInit (some dist) n crit).isOk = false) ∧
      (0 < n → ∀ u, crit.gen (zeros n.toNat (dimsOf dist)) = Except.ok u →
        (lhsInit (some dist) n crit).isOk = true) := by
  refine ⟨fun n2 c2 => rfl, fun hn => ?_, fun hn u hu => ?_⟩
  · simp only [lhsInit]
    rw [if_pos hn]
    rfl
  · rw [lhsInit_eq dist n crit (by omega)]
    have h2 := @runLHS_snd_of_gen_ok
      ⟨dist, crit, n.toNat, zeros n.toNat (dimsOf dist), zeros n.toNat (dimsOf dist)⟩
      n.toNat u hu
    cases hrun : runLHS
        ⟨dist, crit, n.toNat, zeros n.toNat (dimsOf dist), zeros n.toNat (dimsOf dist)⟩
        n.toNat with
    | mk e1 err =>
      rw [hrun] at h2
      have h3 : err = none := h2
      subst h3
      rfl

/-- Witness for C4 (amended): beartype rejection of an invalid
`distributions` input, and acceptance of an `icdf`-less marginal. -/
theorem claim_C4_amended_witness :
    (lhsInit none 2 zeroCrit).isOk = false ∧
      (lhsInit (some (DistObject.continuous1D noIcdfMarg)) 2 zeroCrit).isOk = true :=
  ⟨(claim_C4_amended (DistObject.continuous1D noIcdfMarg) 2 zeroCrit).1 2 zeroCrit,
   (claim_C4_amended (DistObject.continuous1D noIcdfMarg) 2 zeroCrit).2.2
     (by decide) (zeros 2 1) rfl⟩

/-! ## Claim C5 -/

/-- C5: the constructor resolves the dimensionality as the list length, `1`
for a single 1-D distribution, or the number of marginals (`dimsOf`),
allocates `samples` and `samplesU01` as zero matrices of shape
`(samples_number, dimensionality)`, and immediately invokes
`run(samples_number)` on that engine state. -/
theorem claim_C5 (dist : DistObject) (n : Int) (crit : Criterion)
    (hn : 0 < n) :
    lhsInit (some dist) n crit =
      (match runLHS ⟨dist, crit, n.toNat, zeros n.toNat (dimsOf dist),
          zeros n.toNat (dimsOf dist)⟩ n.toNat with
       | (e1, none) => Except.ok e1
       | (_, some msg) => Except.error msg) :=
  lhsInit_eq dist n crit (by omega)

/-- Witness for C5 at a concrete single-distribution construction. -/
theorem claim_C5_witness :
    (0 : Int) < 2 ∧
      lhsInit (some (DistObject.continuous1D idMarg)) 2 zeroCrit =
        (match runLHS ⟨DistObject.continuous1D idMarg, zeroCrit, 2, zeros 2 1,
            zeros 2 1⟩ 2 with
         | (e1, none) => Except.ok e1
         | (_, some msg) => Except.error msg) :=
  ⟨by decide, claim_C5 (DistObject.continuous1D idMarg) 2 zeroCrit (by decide)⟩

/-! ## Claim C6 -/

/-- C6 (counterexample): in a `JointIndependent` design with a capable and
an `icdf`-less marginal, dimension 0's marginal exposes `icdf` yet
`samples[0, 0]` is not the inverse-CDF image of `samplesU01[0, 0]` (it stays
`0` instead of `7`), refuting the claimed row correspondence for every
dimension whose marginal exposes `icdf`. -/
theorem claim_C6_counterexample :
    lhsInit (some (DistObject.jointIndependent [sevenMarg, noIcdfMarg])) 1 zeroCrit
        = Except.ok c6Engine ∧
      c6Engine.samples.length = c6Engine.samplesU01.length ∧
      sevenMarg.icdf = some (fun _ => 7) ∧
      entry c6Engine.samples 0 0 ≠ (fun _ => (7 : ℚ)) (entry c6Engine.samplesU01 0 0) :=
  ⟨rfl, rfl, rfl, by decide⟩

/-- C6 (amended): after every successful `run` the two matrices have
identical shape, and the entry-wise row correspondence
`samples[i, j] = icdf_j(samplesU01[i, j])` holds for every capable dimension
in the list case, in the joint-independent case provided every marginal
exposes `icdf` (otherwise no column is transformed), and in the
single-distribution case. -/
theorem claim_C6_amended {e : LHSEngine} {m : ℕ} {e2 : LHSEngine} {r d : ℕ}
    (hl : e.criterion.Lawful) (hs : IsShape e.samples r d) (hr : 0 < r)
    (h : runLHS e m = (e2, none)) :
    (IsShape e2.samples r d ∧ IsShape e2.samplesU01 r d) ∧
      (∀ ms, e.dist_object = DistObject.ofList ms → ms.length ≤ d →
        ∀ i, i < r → ∀ j mg f, ms[j]? = some mg → mg.icdf = some f →
          entry e2.samples i j = f (entry e2.samplesU01 i j)) ∧
      (∀ ms, e.dist_object = DistObject.jointIndependent ms → ms.length ≤ d →
        ms.all (fun mg => mg.icdf.isSome) = true →
        ∀ i, i < r → ∀ j mg f, ms[j]? = some mg → mg.icdf = some f →
          entry e2.samples i j = f (entry e2.samplesU01 i j)) ∧
      (∀ mg f, e.dist_object = DistObject.continuous1D mg → mg.icdf = some f →
        ∀ i, i < r → ∀ j, j < d →
          entry e2.samples i j = f (entry e2.samplesU01 i j)) := by
  have hsh := runLHS_ok_shape hl hs hr h
  refine ⟨⟨hsh.2.1, hsh.2.2.1⟩, ?_, ?_, ?_⟩
  · intro ms hd hmd i hi j mg f hmg hf
    obtain ⟨hj, _⟩ := List.getElem?_eq_some.1 hmg
    have hthis := entry_run_list hl hs hr h hd hmd hi j
    rw [if_pos hj, applyIcdf_some hmg hf] at hthis
    simpa using hthis
  · intro ms hd hmd hall i hi j mg f hmg hf
    obtain ⟨hj, _⟩ := List.getElem?_eq_some.1 hmg
    have hthis := entry_run_joint hl hs hr h hd hmd hall hi j
    rw [if_pos hj, applyIcdf_some hmg hf] at hthis
    simpa using hthis
  · intro mg f hd hf i hi j hj
    exact entry_run_single hl hs hr h hd hf hi hj

/-- Witness for C6 (amended): the fully capable joint design satisfies the
shape invariant and the row correspondence at entry `(0, 0)`. -/
theorem claim_C6_amended_witness :
    (IsShape c6WitEngine2.samples 1 1 ∧ IsShape c6WitEngine2.samplesU01 1 1) ∧
      entry c6WitEngine2.samples 0 0 = (fun _ => (7 : ℚ)) (entry c6WitEngine2.samplesU01 0 0) :=
  ⟨(@claim_C6_amended c6WitEngine 3 c6WitEngine2 1 1 zeroCrit_lawful
      (by decide) (by decide) rfl).1,
   (@claim_C6_amended c6WitEngine 3 c6WitEngine2 1 1 zeroCrit_lawful
      (by decide) (by decide) rfl).2.2.1 [sevenMarg] rfl (by decide) rfl 0
      (by decide) 0 sevenMarg (fun _ => 7) rfl rfl⟩

/-! ## `JointCopula.__init__` lemmas and claim C7 -/

theorem jointCopulaInit_of_valid {ms : List CMarginal} {cop : PCopula}
    (hall : ms.all (fun m => m.has_cdf) = true) (hlen : ms.length = 2) :
    jointCopulaInit ms cop =
      Except.ok
        { marginals := ms, copula := cop,
          ordered_parameters :=
            (ms.enum.map (fun im =>
              im.2.ordered_parameters.map (fun key => keyM key im.1))).flatten ++
            cop.ordered_parameters.map (fun key => keyC key),
          has_cdf := cop.has_evaluate_cdf,
          has_pdf := ms.all (fun m => m.has_pdf) && cop.has_evaluate_pdf,
          has_log_pdf := ms.all (fun m => m.has_log_pdf) && cop.has_evaluate_pdf } := by
  simp [jointCopulaInit, hall, hlen]

theorem jointCopulaInit_of_not_all {ms : List CMarginal} {cop : PCopula}
    (hall : ms.all (fun m => m.has_cdf) = false) :
    jointCopulaInit ms cop =
      Except.error
        "All the marginals should have a cdf method in order to define a joint with copula." := by
  simp [jointCopulaInit, hall]

theorem jointCopulaInit_of_bad_length {ms : List CMarginal} {cop : PCopula}
    (hall : ms.all (fun m => m.has_cdf) = true) (hlen : ms.length ≠ 2) :
    jointCopulaInit ms cop =
      Except.error "Maximum dimension for the Copula is 2." := by
  simp [jointCopulaInit, hall, hlen]

/-- C7 (counterexample): a single marginal that does have `cdf` is rejected
by `Copula.check_marginals` (UQpy copulas are bivariate), so construction
raises even though every marginal has `cdf` — "raises an error unless every
marginal has `cdf`" does not describe the constructor's error condition. -/
theorem claim_C7_counterexample :
    [c7Marg].all (fun m => m.has_cdf) = true ∧
      jointCopulaInit [c7Marg] c7Cop =
        Except.error "Maximum dimension for the Copula is 2." :=
  ⟨rfl, rfl⟩

/-- C7 (amended): construction succeeds iff every marginal has `cdf` and,
per `Copula.check_marginals`, exactly two (continuous) marginals are given;
on success, the instance exposes `cdf` iff the copula has `evaluate_cdf`,
`pdf` iff every marginal has `pdf` and the copula has `evaluate_pdf`, and
`log_pdf` iff every marginal has `log_pdf` and the copula has
`evaluate_pdf` — resolved once at construction. -/
theorem claim_C7 (ms : List CMarginal) (cop : PCopula) :
    ((jointCopulaInit ms cop).isOk = true ↔
        (ms.all (fun m => m.has_cdf) = true ∧ ms.length = 2)) ∧
      (∀ j, jointCopulaInit ms cop = Except.ok j →
        j.has_cdf = cop.has_evaluate_cdf ∧
        j.has_pdf = (ms.all (fun m => m.has_pdf) && cop.has_evaluate_pdf) ∧
        j.has_log_pdf = (ms.all (fun m => m.has_log_pdf) && cop.has_evaluate_pdf) ∧
        j.marginals = ms ∧ j.copula = cop) := by
  by_cases hall : ms.all (fun m => m.has_cdf) = true
  · by_cases hlen : ms.length = 2
    · refine ⟨⟨fun _ => ⟨hall, hlen⟩, fun _ => ?_⟩, fun j hj => ?_⟩
      · rw [jointCopulaInit_of_valid hall hlen]; rfl
      · rw [jointCopulaInit_of_valid hall hlen] at hj
        rw [Except.ok.injEq] at hj
        rw [← hj]
        exact ⟨rfl, rfl, rfl, rfl, rfl⟩
    · refine ⟨⟨fun hok => ?_, fun h2 => absurd h2.2 hlen⟩, fun j hj => ?_⟩
      · rw [jointCopulaInit_of_bad_length hall hlen] at hok
        exact Bool.noConfusion hok
      · rw [jointCopulaInit_of_bad_length hall hlen] at hj
        exact Except.noConfusion hj
  · have hall2 : ms.all (fun m => m.has_cdf) = false := by
      cases h2 : ms.all (fun m => m.has_cdf) with
      | true => exact absurd h2 hall
      | false => rfl
    refine ⟨⟨fun hok => ?_, fun h2 => absurd h2.1 hall⟩, fun j hj => ?_⟩
    · rw [jointCopulaInit_of_not_all hall2] at hok
      exact Bool.noConfusion hok
    · rw [jointCopulaInit_of_not_all hall2] at hj
      exact Except.noConfusion hj

/-- Witness for C7 (amended) at a concrete bivariate marginal/copula pair
(the marginals lack `log_pdf`, so the joint exposes `cdf` and `pdf` but not
`log_pdf`). -/
theorem claim_C7_witness :
    ((jointCopulaInit [c7Marg, c7Marg] c7Cop).isOk = true ↔
        ([c7Marg, c7Marg].all (fun m => m.has_cdf) = true ∧
          ([c7Marg, c7Marg] : List CMarginal).length = 2)) ∧
      (c7J.has_cdf = c7Cop.has_evaluate_cdf ∧
        c7J.has_pdf = ([c7Marg, c7Marg].all (fun m => m.has_pdf) && c7Cop.has_evaluate_pdf) ∧
        c7J.has_log_pdf = ([c7Marg, c7Marg].all (fun m => m.has_log_pdf) && c7Cop.has_evaluate_pdf) ∧
        c7J.marginals = [c7Marg, c7Marg] ∧ c7J.copula = c7Cop) :=
  ⟨(claim_C7 [c7Marg, c7Marg] c7Cop).1, (claim_C7 [c7Marg, c7Marg] c7Cop).2 c7J rfl⟩

/-! ## Parameter-identifier splitting lemmas -/

theorem modifyHead_append_left {α : Type} (f : List α → List α)
    (l l2 : List (List α)) (h : l ≠ []) :
    (l ++ l2).modifyHead f = l.modifyHead f ++ l2 := by
  cases l with
  | nil => exact absurd rfl h
  | cons a t => rfl

theorem splitOn_append (c : Char) (b : List Char) :
    ∀ (a : List Char), (a ++ c :: b).splitOn c = a.splitOn c ++ b.splitOn c := by
  intro a
  induction a with
  | nil =>
    simp [List.splitOn, List.splitOnP_cons]
  | cons hd tl ih =>
    simp only [List.cons_append, List.splitOn, List.splitOnP_cons] at *
    by_cases hc : hd = c
    · rw [if_pos (by simp [hc]), if_pos (by simp [hc])]
      rw [ih]
      rfl
    · rw [if_neg (by simp [hc]), if_neg (by simp [hc])]
      rw [ih]
      exact modifyHead_append_left _ _ _ (List.splitOnP_ne_nil _ tl)

theorem splitOn_no_sep {c : Char} {s : List Char} (h : c ∉ s) :
    s.splitOn c = [s] := by
  simp only [List.splitOn]
  refine List.splitOnP_eq_single _ _ ?_
  intro x hx
  simp only [beq_iff_eq]
  intro hxc
  exact h (hxc ▸ hx)

theorem splitOn_key_suffix (key sfx : List Char) (hno : '_' ∉ sfx) :
    (key ++ '_' :: sfx).splitOn '_' = key.splitOn '_' ++ [sfx] := by
  rw [splitOn_append, splitOn_no_sep hno]

theorem parse_key_suffix (key sfx : List Char) (hno : '_' ∉ sfx) :
    ((key ++ '_' :: sfx).splitOn '_').getLastD [] = sfx ∧
      List.intercalate ['_'] ((key ++ '_' :: sfx).splitOn '_').dropLast = key := by
  rw [splitOn_key_suffix key sfx hno]
  constructor
  · exact List.getLastD_concat _ _ _
  · rw [List.dropLast_concat]
    exact List.intercalate_splitOn key '_'

theorem natChars_no_underscore (n : ℕ) : '_' ∉ natChars n := by
  unfold natChars
  by_cases h : n = 0
  · rw [if_pos h]
    decide
  · rw [if_neg h]
    intro hmem
    rw [List.mem_reverse] at hmem
    obtain ⟨d, hd, hchar⟩ := List.mem_map.1 hmem
    have hlt : d < 10 := Nat.digits_lt_base (by norm_num) hd
    interval_cases d <;> exact absurd hchar (by decide)

theorem natChars_ne_c (n : ℕ) : natChars n ≠ ['c'] := by
  unfold natChars
  by_cases h : n = 0
  · rw [if_pos h]
    decide
  · rw [if_neg h]
    intro heq
    have hlen : ((Nat.digits 10 n).map Nat.digitChar).reverse.length = 1 := by
      rw [heq]
      rfl
    rw [List.length_reverse, List.length_map] at hlen
    obtain ⟨d, hd⟩ := List.length_eq_one.1 hlen
    rw [hd] at heq
    simp only [List.map_cons, List.map_nil, List.reverse_singleton,
      List.cons.injEq] at heq
    have hlt : d < 10 := Nat.digits_lt_base (by norm_num) (by rw [hd]; simp)
    interval_cases d <;> exact absurd heq.1 (by decide)

theorem charVal_digitChar {d : ℕ} (h : d < 10) :
    charVal (Nat.digitChar d) = d := by
  interval_cases d <;> decide

theorem charsToNat_natChars (n : ℕ) : charsToNat (natChars n) = n := by
  unfold charsToNat natChars
  by_cases h : n = 0
  · rw [if_pos h, h]
    decide
  · rw [if_neg h]
    rw [List.map_reverse, List.reverse_reverse, List.map_map]
    have hmap : (Nat.digits 10 n).map (charVal ∘ Nat.digitChar)
        = (Nat.digits 10 n).map id := by
      refine List.map_congr_left ?_
      intro d hd
      exact charVal_digitChar (Nat.digits_lt_base (by norm_num) hd)
    rw [hmap, List.map_id]
    exact Nat.ofDigits_digits 10 n

theorem parse_keyM (key : Name) (i : ℕ) :
    ((keyM key i).splitOn '_').getLastD [] = natChars i ∧
      List.intercalate ['_'] ((keyM key i).splitOn '_').dropLast = key :=
  parse_key_suffix key (natChars i) (natChars_no_underscore i)

theorem parse_keyC (key : Name) :
    ((keyC key).splitOn '_').getLastD [] = ['c'] ∧
      List.intercalate ['_'] ((keyC key).splitOn '_').dropLast = key :=
  parse_key_suffix key ['c'] (by decide)

/-! ## Python-dict lemmas -/

theorem mem_dictSet {d : ParamDict} {k : Name} {v : ℚ} {p : Name × ℚ}
    (hp : p ∈ dictSet d k v) : p = (k, v) ∨ p ∈ d := by
  unfold dictSet at hp
  split at hp
  · obtain ⟨q, hq, hpq⟩ := List.mem_map.1 hp
    by_cases hqk : q.1 = k
    · rw [if_pos hqk] at hpq
      exact Or.inl hpq.symm
    · rw [if_neg hqk] at hpq
      exact Or.inr (hpq ▸ hq)
  · rcases List.mem_append.1 hp with h2 | h2
    · exact Or.inr h2
    · exact Or.inl (List.mem_singleton.1 h2)

theorem dictSet_mem_self {d : ParamDict} {k : Name} {v : ℚ}
    (hnd : (dictKeys d).Nodup) (h : (k, v) ∈ d) : dictSet d k v = d := by
  unfold dictSet
  rw [if_pos (List.any_eq_true.2 ⟨(k, v), h, by simp⟩)]
  have h2 : d.map (fun p => if p.1 = k then (k, v) else p) = d.map id := by
    refine List.map_congr_left ?_
    intro q hq
    by_cases hqk : q.1 = k
    · rw [if_pos hqk]
      have h3 : q = (k, v) := List.inj_on_of_nodup_map hnd hq h (by simp [hqk])
      rw [h3]
      rfl
    · rw [if_neg hqk]
      rfl
  rw [h2, List.map_id]

theorem find?_replace_of_any (k : Name) (v : ℚ) :
    ∀ d : ParamDict, d.any (fun p => p.1 = k) = true →
      (d.map (fun p => if p.1 = k then (k, v) else p)).find? (fun p => p.1 = k)
        = some (k, v) := by
  intro d
  induction d with
  | nil => intro h2; simp at h2
  | cons q t ih =>
    intro hany
    simp only [List.map_cons, List.find?_cons]
    by_cases hqk : q.1 = k
    · simp [hqk]
    · rw [if_neg hqk]
      have hany2 : t.any (fun p => p.1 = k) = true := by
        rcases List.any_eq_true.1 hany with ⟨x, hx, hxk⟩
        rcases List.mem_cons.1 hx with rfl | hx2
        · exact absurd (by simpa using hxk) hqk
        · exact List.any_eq_true.2 ⟨x, hx2, hxk⟩
      simpa [hqk] using ih hany2

theorem find?_replace_ne (k : Name) (v : ℚ) (k2 : Name) (h : k2 ≠ k) :
    ∀ d : ParamDict,
      (d.map (fun p => if p.1 = k then (k, v) else p)).find? (fun p => p.1 = k2)
        = d.find? (fun p => p.1 = k2) := by
  intro d
  induction d with
  | nil => rfl
  | cons q t ih =>
    simp only [List.map_cons, List.find?_cons]
    by_cases hqk : q.1 = k
    · rw [if_pos hqk]
      have hk2 : ¬ k = k2 := fun hc => h hc.symm
      have hq2 : ¬ q.1 = k2 := by rw [hqk]; exact hk2
      simpa [hk2, hq2] using ih
    · rw [if_neg hqk]
      by_cases hq2 : q.1 = k2
      · simp [hq2]
      · simpa [hq2] using ih

theorem dictGet_dictSet_self (d : ParamDict) (k : Name) (v : ℚ) :
    dictGet (dictSet d k v) k = some v := by
  unfold dictGet dictSet
  by_cases hany : d.any (fun p => p.1 = k) = true
  · rw [if_pos hany, find?_replace_of_any k v d hany]
    rfl
  · rw [if_neg hany, List.find?_append]
    have hnone : d.find? (fun p => p.1 = k) = none := by
      rw [List.find?_eq_none]
      intro x hx hxk
      exact hany (List.any_eq_true.2 ⟨x, hx, hxk⟩)
    rw [hnone]
    simp

theorem dictGet_dictSet_ne (d : ParamDict) (k : Name) (v : ℚ) (k2 : Name)
    (h : k2 ≠ k) : dictGet (dictSet d k v) k2 = dictGet d k2 := by
  unfold dictGet dictSet
  by_cases hany : d.any (fun p => p.1 = k) = true
  · rw [if_pos hany, find?_replace_ne k v k2 h d]
  · rw [if_neg hany, List.find?_append]
    have hkk2 : ¬ k = k2 := fun hc => h hc.symm
    have hsing : ([(k, v)] : ParamDict).find? (fun p => p.1 = k2) = none := by
      simp [hkk2]
    rw [hsing]
    simp

theorem mem_keys_dictSet_self (d : ParamDict) (k : Name) (v : ℚ) :
    k ∈ dictKeys (dictSet d k v) := by
  unfold dictKeys dictSet
  by_cases hany : d.any (fun p => p.1 = k) = true
  · rw [if_pos hany]
    obtain ⟨x, hx, hxk⟩ := List.any_eq_true.1 hany
    refine List.mem_map.2 ⟨(k, v), ?_, rfl⟩
    refine List.mem_map.2 ⟨x, hx, ?_⟩
    rw [if_pos (by simpa using hxk)]
  · rw [if_neg hany]
    refine List.mem_map.2 ⟨(k, v), ?_, rfl⟩
    exact List.mem_append_right _ (List.mem_singleton.2 rfl)

theorem mem_keys_dictSet_mono (d : ParamDict) (k : Name) (v : ℚ) {k2 : Name}
    (h : k2 ∈ dictKeys d) : k2 ∈ dictKeys (dictSet d k v) := by
  unfold dictKeys at *
  obtain ⟨p, hp, hpk⟩ := List.mem_map.1 h
  unfold dictSet
  by_cases hany : d.any (fun p => p.1 = k) = true
  · rw [if_pos hany]
    by_cases hpkk : p.1 = k
    · refine List.mem_map.2 ⟨(k, v), List.mem_map.2 ⟨p, hp, by rw [if_pos hpkk]⟩, ?_⟩
      rw [← hpk, hpkk]
    · exact List.mem_map.2 ⟨p, List.mem_map.2 ⟨p, hp, by rw [if_neg hpkk]⟩, hpk⟩
  · rw [if_neg hany]
    exact List.mem_map.2 ⟨p, List.mem_append_left _ hp, hpk⟩

theorem list_set_self {α : Type} :
    ∀ (l : List α) (i : ℕ) (a : α), l[i]? = some a → l.set i a = l := by
  intro l
  induction l with
  | nil => intro i a h; simp at h
  | cons x t ih =>
    intro i a h
    cases i with
    | zero =>
      simp only [List.getElem?_cons_zero, Option.some.injEq] at h
      rw [← h]
      rfl
    | succ i2 =>
      simp only [List.getElem?_cons_succ] at h
      show x :: t.set i2 a = x :: t
      rw [ih i2 a h]

/-! ## `get_parameters` membership and completeness -/

theorem mem_foldl_dictSet (g : Name × ℚ → Name) :
    ∀ (ps : List (Name × ℚ)) (acc : ParamDict) (p : Name × ℚ),
      p ∈ ps.foldl (fun a kv => dictSet a (g kv) kv.2) acc →
      p ∈ acc ∨ ∃ kv ∈ ps, p = (g kv, kv.2) := by
  intro ps
  induction ps with
  | nil => intro acc p hp; exact Or.inl hp
  | cons kv0 rest ih =>
    intro acc p hp
    rw [List.foldl_cons] at hp
    rcases ih _ p hp with h2 | ⟨kv, hkv, hpe⟩
    · rcases mem_dictSet h2 with h3 | h3
      · exact Or.inr ⟨kv0, List.mem_cons_self _ _, h3⟩
      · exact Or.inl h3
    · exact Or.inr ⟨kv, List.mem_cons_of_mem _ hkv, hpe⟩

theorem mem_enumFold :
    ∀ (es : List (ℕ × CMarginal)) (acc : ParamDict) (p : Name × ℚ),
      p ∈ es.foldl (fun acc2 im => im.2.parameters.foldl
          (fun acc3 kv => dictSet acc3 (keyM kv.1 im.1) kv.2) acc2) acc →
      p ∈ acc ∨ ∃ im ∈ es, ∃ kv ∈ im.2.parameters, p = (keyM kv.1 im.1, kv.2) := by
  intro es
  induction es with
  | nil => intro acc p hp; exact Or.inl hp
  | cons im0 rest ih =>
    intro acc p hp
    rw [List.foldl_cons] at hp
    rcases ih _ p hp with h2 | ⟨im, him, kv, hkv, hpe⟩
    · rcases mem_foldl_dictSet (fun kv => keyM kv.1 im0.1) im0.2.parameters acc p h2
        with h3 | ⟨kv, hkv, hpe⟩
      · exact Or.inl h3
      · exact Or.inr ⟨im0, List.mem_cons_self _ _, kv, hkv, hpe⟩
    · exact Or.inr ⟨im, List.mem_cons_of_mem _ him, kv, hkv, hpe⟩

theorem mem_getParameters {j : JointCopulaD} {p : Name × ℚ}
    (hp : p ∈ getParameters j) :
    (∃ i mg kv, j.marginals[i]? = some mg ∧ kv ∈ mg.parameters ∧
       p = (keyM kv.1 i, kv.2)) ∨
    (∃ kv, kv ∈ j.copula.parameters ∧ p = (keyC kv.1, kv.2)) := by
  simp only [getParameters] at hp
  rcases mem_foldl_dictSet (fun kv => keyC kv.1) j.copula.parameters _ p hp
    with h2 | ⟨kv, hkv, hpe⟩
  · rcases mem_enumFold j.marginals.enum [] p h2
      with h3 | ⟨im, him, kv, hkv, hpe⟩
    · simp at h3
    · exact Or.inl ⟨im.1, im.2, kv, List.mem_enum_iff_getElem?.1 him, hkv, hpe⟩
  · exact Or.inr ⟨kv, hkv, hpe⟩

theorem keys_foldl_dictSet_mono (g : Name × ℚ → Name) :
    ∀ (ps : List (Name × ℚ)) (acc : ParamDict) {k : Name}, k ∈ dictKeys acc →
      k ∈ dictKeys (ps.foldl (fun a kv => dictSet a (g kv) kv.2) acc) := by
  intro ps
  induction ps with
  | nil => intro acc k hk; exact hk
  | cons kv0 rest ih =>
    intro acc k hk
    rw [List.foldl_cons]
    exact ih _ (mem_keys_dictSet_mono _ _ _ hk)

theorem keys_foldl_dictSet_inserted (g : Name × ℚ → Name) :
    ∀ (ps : List (Name × ℚ)) (acc : ParamDict) {kv : Name × ℚ}, kv ∈ ps →
      g kv ∈ dictKeys (ps.foldl (fun a kv2 => dictSet a (g kv2) kv2.2) acc) := by
  intro ps
  induction ps with
  | nil => intro acc kv hkv; simp at hkv
  | cons kv0 rest ih =>
    intro acc kv hkv
    rw [List.foldl_cons]
    rcases List.mem_cons.1 hkv with rfl | hkv2
    · exact keys_foldl_dictSet_mono g rest _ (mem_keys_dictSet_self _ _ _)
    · exact ih _ hkv2

theorem keys_enumFold_mono :
    ∀ (es : List (ℕ × CMarginal)) (acc : ParamDict) {k : Name},
      k ∈ dictKeys acc →
      k ∈ dictKeys (es.foldl (fun acc2 im => im.2.parameters.foldl
        (fun acc3 kv => dictSet acc3 (keyM kv.1 im.1) kv.2) acc2) acc) := by
  intro es
  induction es with
  | nil => intro acc k hk; exact hk
  | cons im0 rest ih =>
    intro acc k hk
    rw [List.foldl_cons]
    exact ih _ (keys_foldl_dictSet_mono (fun kv => keyM kv.1 im0.1) _ _ hk)

theorem keys_enumFold_inserted :
    ∀ (es : List (ℕ × CMarginal)) (acc : ParamDict) {im : ℕ × CMarginal}
      {kv : Name × ℚ}, im ∈ es → kv ∈ im.2.parameters →
      keyM kv.1 im.1 ∈ dictKeys (es.foldl (fun acc2 im2 =>
        im2.2.parameters.foldl
          (fun acc3 kv2 => dictSet acc3 (keyM kv2.1 im2.1) kv2.2) acc2) acc) := by
  intro es
  induction es with
  | nil => intro acc im kv him hkv; simp at him
  | cons im0 rest ih =>
    intro acc im kv him hkv
    rw [List.foldl_cons]
    rcases List.mem_cons.1 him with rfl | him2
    · exact keys_enumFold_mono rest _
        (keys_foldl_dictSet_inserted (fun kv2 => keyM kv2.1 im.1) _ _ hkv)
    · exact ih _ him2 hkv

theorem keys_getParameters_marg {j : JointCopulaD} {i : ℕ} {mg : CMarginal}
    {k : Name} (hi : j.marginals[i]? = some mg)
    (hk : k ∈ dictKeys mg.parameters) :
    keyM k i ∈ dictKeys (getParameters j) := by
  simp only [getParameters]
  obtain ⟨kv, hkv, hkvk⟩ := List.mem_map.1 hk
  have him : (i, mg) ∈ j.marginals.enum := List.mem_enum_iff_getElem?.2 hi
  have h2 := keys_enumFold_inserted j.marginals.enum [] him hkv
  have h3 := keys_foldl_dictSet_mono (fun kv2 => keyC kv2.1)
    j.copula.parameters _ h2
  rw [← hkvk]
  exact h3

theorem keys_getParameters_cop {j : JointCopulaD} {k : Name}
    (hk : k ∈ dictKeys j.copula.parameters) :
    keyC k ∈ dictKeys (getParameters j) := by
  simp only [getParameters]
  obtain ⟨kv, hkv, hkvk⟩ := List.mem_map.1 hk
  have h2 := keys_foldl_dictSet_inserted (fun kv2 => keyC kv2.1)
    j.copula.parameters
    (j.marginals.enum.foldl (fun acc2 im => im.2.parameters.foldl
      (fun acc3 kv2 => dictSet acc3 (keyM kv2.1 im.1) kv2.2) acc2) []) hkv
  rw [← hkvk]
  exact h2

/-! ## `update_parameters` lemmas -/

theorem updateStep_unrecognized {j : JointCopulaD} {allKeys : List Name}
    {k : Name} (h : k ∉ allKeys) (v : ℚ) :
    updateStep j allKeys k v = Except.error "Unrecognized keyword argument" := by
  unfold updateStep
  rw [if_pos h]

theorem updateStep_keyM {j : JointCopulaD} {allKeys : List Name} {key : Name}
    {i : ℕ} {mg : CMarginal} (hmem : keyM key i ∈ allKeys)
    (hi : j.marginals[i]? = some mg) (v : ℚ) :
    updateStep j allKeys (keyM key i) v =
      Except.ok { j with marginals := j.marginals.set i { mg with parameters := dictSet mg.parameters key v } } := by
  unfold updateStep
  rw [if_neg (not_not_intro hmem)]
  simp only [(parse_keyM key i).1, (parse_keyM key i).2]
  rw [if_neg (natChars_ne_c i), charsToNat_natChars i, hi]

theorem updateStep_keyC {j : JointCopulaD} {allKeys : List Name} {key : Name}
    (hmem : keyC key ∈ allKeys) (v : ℚ) :
    updateStep j allKeys (keyC key) v =
      Except.ok { j with copula :=
        { j.copula with parameters := dictSet j.copula.parameters key v } } := by
  unfold updateStep
  rw [if_neg (not_not_intro hmem)]
  simp only [(parse_keyC key).1, (parse_keyC key).2]
  simp

theorem updateStep_id {j : JointCopulaD}
    (hm : ∀ m ∈ j.marginals, (dictKeys m.parameters).Nodup)
    (hc : (dictKeys j.copula.parameters).Nodup)
    {p : Name × ℚ} (hp : p ∈ getParameters j) :
    updateStep j (dictKeys (getParameters j)) p.1 p.2 = Except.ok j := by
  have hkey : p.1 ∈ dictKeys (getParameters j) := List.mem_map_of_mem _ hp
  rcases mem_getParameters hp with ⟨i, mg, kv, hi, hkv, hpe⟩ | ⟨kv, hkv, hpe⟩
  · have hk1 : p.1 = keyM kv.1 i := by rw [hpe]
    have hk2 : p.2 = kv.2 := by rw [hpe]
    rw [hk1] at hkey
    rw [hk1, hk2, updateStep_keyM hkey hi kv.2]
    have hmg : mg ∈ j.marginals := by
      obtain ⟨hlt, heq⟩ := List.getElem?_eq_some.1 hi
      exact heq ▸ List.getElem_mem hlt
    have hset : dictSet mg.parameters kv.1 kv.2 = mg.parameters := by
      refine dictSet_mem_self (hm mg hmg) ?_
      have he : (kv.1, kv.2) = kv := rfl
      rw [he]
      exact hkv
    rw [hset]
    have hmg2 : ({ mg with parameters := mg.parameters } : CMarginal) = mg := rfl
    rw [hmg2, list_set_self _ _ _ hi]
  · have hk1 : p.1 = keyC kv.1 := by rw [hpe]
    have hk2 : p.2 = kv.2 := by rw [hpe]
    rw [hk1] at hkey
    rw [hk1, hk2, updateStep_keyC hkey kv.2]
    have hset : dictSet j.copula.parameters kv.1 kv.2 = j.copula.parameters := by
      refine dictSet_mem_self hc ?_
      have he : (kv.1, kv.2) = kv := rfl
      rw [he]
      exact hkv
    rw [hset]

theorem updateGo_id {j : JointCopulaD}
    (hm : ∀ m ∈ j.marginals, (dictKeys m.parameters).Nodup)
    (hc : (dictKeys j.copula.parameters).Nodup) :
    ∀ kwargs : List (Name × ℚ), (∀ p ∈ kwargs, p ∈ getParameters j) →
      updateGo (dictKeys (getParameters j)) j kwargs = (j, none) := by
  intro kwargs
  induction kwargs with
  | nil => intro _; rfl
  | cons p rest ih =>
    intro hall
    have hstep := updateStep_id hm hc (hall p (List.mem_cons_self _ _))
    show (match updateStep j (dictKeys (getParameters j)) p.1 p.2 with
          | Except.ok j2 => updateGo (dictKeys (getParameters j)) j2 rest
          | Except.error msg => (j, some msg)) = (j, none)
    rw [hstep]
    exact ih (fun q hq => hall q (List.mem_cons_of_mem _ hq))

theorem updateParameters_single_ok {j : JointCopulaD} {k : Name} {v : ℚ}
    {j2 : JointCopulaD}
    (h : updateStep j (dictKeys (getParameters j)) k v = Except.ok j2) :
    updateParameters j [(k, v)] = (j2, none) := by
  show (match updateStep j (dictKeys (getParameters j)) k v with
        | Except.ok j3 => updateGo (dictKeys (getParameters j)) j3 []
        | Except.error msg => (j, some msg)) = (j2, none)
  rw [h]
  rfl

theorem updateParameters_single_err {j : JointCopulaD} {k : Name} {v : ℚ}
    {msg : String}
    (h : updateStep j (dictKeys (getParameters j)) k v = Except.error msg) :
    updateParameters j [(k, v)] = (j, some msg) := by
  show (match updateStep j (dictKeys (getParameters j)) k v with
        | Except.ok j3 => updateGo (dictKeys (getParameters j)) j3 []
        | Except.error msg2 => (j, some msg2)) = (j, some msg)
  rw [h]

/-! ## Claim C8 -/

/-- C8: the `key_index` / `key_c` namespacing round-trips — feeding
`get_parameters()` back into `update_parameters` writes every parameter back
to its own owner with its own value, leaving every marginal parameter and
every copula parameter unchanged (and a subsequent `get_parameters` returns
the same dictionary), even when parameter names contain underscores: the
split is on the last underscore, and a decimal index never contains an
underscore and never equals the copula tag `c`. -/
theorem claim_C8 (j : JointCopulaD)
    (hm : ∀ m ∈ j.marginals, (dictKeys m.parameters).Nodup)
    (hc : (dictKeys j.copula.parameters).Nodup) :
    updateParameters j (getParameters j) = (j, none) ∧
      getParameters (updateParameters j (getParameters j)).1 = getParameters j := by
  have h1 : updateParameters j (getParameters j) = (j, none) :=
    updateGo_id hm hc (getParameters j) (fun p hp => hp)
  exact ⟨h1, by rw [h1]⟩

/-- Witness for C8 on a joint whose parameter names (`a_c` on the marginal,
`a_0` on the copula) are adversarially underscored. -/
theorem claim_C8_witness :
    updateParameters c8J (getParameters c8J) = (c8J, none) ∧
      getParameters (updateParameters c8J (getParameters c8J)).1 = getParameters c8J :=
  claim_C8 c8J (by decide) (by decide)

/-! ## Claim C10 -/

/-- C10: a single unrecognized keyword raises `ValueError`; a single
recognized keyword `key_i` rewrites exactly parameter `key` of marginal `i`
(the addressed dict maps `key` to the new value, every other key of that
dict is unchanged, and every other marginal and the copula are untouched);
a keyword `key_c` does the same for the copula parameter `key`. -/
theorem claim_C10 (j : JointCopulaD) :
    (∀ k v, k ∉ dictKeys (getParameters j) →
      updateParameters j [(k, v)] = (j, some "Unrecognized keyword argument")) ∧
    (∀ i mg k v, j.marginals[i]? = some mg → k ∈ dictKeys mg.parameters →
      updateParameters j [(keyM k i, v)] =
        ({ j with marginals := j.marginals.set i { mg with parameters := dictSet mg.parameters k v } }, none) ∧
      dictGet (dictSet mg.parameters k v) k = some v ∧
      (∀ k2, k2 ≠ k →
        dictGet (dictSet mg.parameters k v) k2 = dictGet mg.parameters k2) ∧
      (∀ i2, i2 ≠ i →
        (j.marginals.set i { mg with parameters := dictSet mg.parameters k v })[i2]?
          = j.marginals[i2]?)) ∧
    (∀ k v, k ∈ dictKeys j.copula.parameters →
      updateParameters j [(keyC k, v)] =
        ({ j with copula := { j.copula with parameters := dictSet j.copula.parameters k v } }, none) ∧
      dictGet (dictSet j.copula.parameters k v) k = some v ∧
      (∀ k2, k2 ≠ k →
        dictGet (dictSet j.copula.parameters k v) k2 = dictGet j.copula.parameters k2)) := by
  refine ⟨?_, ?_, ?_⟩
  · intro k v hk
    exact updateParameters_single_err (updateStep_unrecognized hk v)
  · intro i mg k v hi hk
    refine ⟨updateParameters_single_ok
        (updateStep_keyM (keys_getParameters_marg hi hk) hi v),
      dictGet_dictSet_self _ _ _,
      fun k2 hk2 => dictGet_dictSet_ne _ _ _ _ hk2,
      fun i2 hi2 => List.getElem?_set_ne (Ne.symm hi2)⟩
  · intro k v hk
    exact ⟨updateParameters_single_ok
        (updateStep_keyC (keys_getParameters_cop hk) v),
      dictGet_dictSet_self _ _ _,
      fun k2 hk2 => dictGet_dictSet_ne _ _ _ _ hk2⟩

/-- Witness for C10: an unrecognized keyword raises, and the recognized
keyword `loc_0` rewrites exactly marginal 0's `loc` parameter. -/
theorem claim_C10_witness :
    updateParameters c10J [("bogus".toList, 9)]
        = (c10J, some "Unrecognized keyword argument") ∧
      updateParameters c10J [(keyM "loc".toList 0, 9)] =
        ({ c10J with marginals := c10J.marginals.set 0 { c10Marg with parameters := dictSet c10Marg.parameters "loc".toList 9 } }, none) :=
  ⟨(claim_C10 c10J).1 ("bogus".toList) 9 (by decide),
   ((claim_C10 c10J).2.1 0 c10Marg ("loc".toList) 9 rfl (by decide)).1⟩

end UQpyModel
